import Mathlib

/-!
Verification of the transactional commit core of a Delta Lake implementation
(crates/core/src/kernel/transaction/mod.rs and crates/core/src/operations/write/writer.rs).

The Rust code is shallowly embedded: asynchronous storage interactions are
modelled as explicit oracle structures (one response function per external
call), and each pipeline stage becomes a pure Lean function that returns the
event trace of external calls it performed together with its result.
Machine integers (i64, u64, usize) are modelled as Int / Nat; commit payload
bytes are modelled as lists of characters.
-/

set_option maxHeartbeats 1000000

namespace DeltaRs

/-! ## Characters and JSON-style string escaping -/

/-- Left curly brace character (code point 123). -/
def lbrace : Char := Char.ofNat 123

/-- Right curly brace character (code point 125). -/
def rbrace : Char := Char.ofNat 125

/-- Convert a Lean string literal into the character-list representation used
for modelling byte strings. -/
def str (s : String) : List Char := s.toList

/-- JSON string escaping as performed by serde_json for the characters that
matter to the single-line property: backslash, double quote and newline are
escaped; all other characters pass through. -/
def escape : List Char → List Char
  | [] => []
  | c :: cs =>
    (if c = '\\' then ['\\', '\\']
     else if c = '"' then ['\\', '"']
     else if c = '\n' then ['\\', 'n']
     else [c]) ++ escape cs

/-- Parse the body of a JSON string literal up to (and consuming) the closing
double quote, undoing `escape`. Returns the decoded characters and the rest
of the input. -/
def parseStrBody : List Char → Option (List Char × List Char)
  | [] => none
  | c :: cs =>
    if c = '"' then some ([], cs)
    else if c = '\\' then
      match cs with
      | [] => none
      | d :: ds =>
        match (if d = '\\' then some '\\'
               else if d = '"' then some '"'
               else if d = 'n' then some '\n' else none) with
        | none => none
        | some e =>
          match parseStrBody ds with
          | none => none
          | some (s, r) => some (e :: s, r)
    else
      match parseStrBody cs with
      | none => none
      | some (s, r) => some (c :: s, r)
  termination_by l => l.length
  decreasing_by all_goals (simp_all; try omega)

/-- Serialize a character list as a JSON string literal. -/
def encodeString (s : List Char) : List Char := '"' :: (escape s ++ ['"'])

/-- Parse a JSON string literal (opening quote, escaped body, closing quote). -/
def parseString : List Char → Option (List Char × List Char)
  | [] => none
  | c :: cs => if c = '"' then parseStrBody cs else none

/-! ## Decimal numbers -/

/-- Character for a single decimal digit. -/
def digitChar (d : Nat) : Char := Char.ofNat (48 + d)

/-- Test for an ASCII decimal digit. -/
def isDig (c : Char) : Bool := 48 ≤ c.toNat && c.toNat ≤ 57

/-- Numeric value of an ASCII decimal digit. -/
def digitVal (c : Char) : Nat := c.toNat - 48

/-- Little-endian base-10 digits computed with explicit fuel, so that the
kernel can evaluate it on closed inputs. -/
def natDigitsAux : Nat → Nat → List Nat
  | 0, _ => []
  | _ + 1, 0 => []
  | fuel + 1, n + 1 => ((n + 1) % 10) :: natDigitsAux fuel ((n + 1) / 10)

/-- Little-endian base-10 digits of a natural number. -/
def natDigits (n : Nat) : List Nat := natDigitsAux n n

/-- Serialize a natural number in decimal. -/
def encodeNat (n : Nat) : List Char :=
  if n = 0 then ['0'] else (natDigits n).reverse.map digitChar

/-- Parse a decimal natural number (one or more leading digits). -/
def parseNat (s : List Char) : Option (Nat × List Char) :=
  let ds := s.takeWhile isDig
  if ds.isEmpty then none
  else some (Nat.ofDigits 10 ((ds.map digitVal).reverse), s.dropWhile isDig)

/-- Holds when the input does not continue with a decimal digit, so that a
preceding number parse stops at the right place. -/
def headNotDig : List Char → Bool
  | [] => true
  | c :: _ => !isDig c

/-- Serialize an integer in decimal with an optional leading minus sign. -/
def encodeInt (i : Int) : List Char :=
  if i < 0 then '-' :: encodeNat i.natAbs else encodeNat i.natAbs

/-- Parse a decimal integer with an optional leading minus sign. -/
def parseInt (s : List Char) : Option (Int × List Char) :=
  match s with
  | [] => none
  | c :: rest =>
    if c = '-' then (parseNat rest).map (fun p => (-(p.1 : Int), p.2))
    else (parseNat (c :: rest)).map (fun p => ((p.1 : Int), p.2))

/-! ## Booleans, literals and optional values -/

/-- Serialize a boolean as a JSON literal. -/
def encodeBool (b : Bool) : List Char := if b then str "true" else str "false"

/-- Parse a JSON boolean literal. -/
def parseBool (s : List Char) : Option (Bool × List Char) :=
  if s.take 4 = str "true" then some (true, s.drop 4)
  else if s.take 5 = str "false" then some (false, s.drop 5)
  else none

/-- Consume an exact literal from the front of the input. -/
def parseLit (lit s : List Char) : Option (List Char) :=
  if s.take lit.length = lit then some (s.drop lit.length) else none

/-- Serialize an optional integer, with `null` for the absent case. -/
def encodeOptInt : Option Int → List Char
  | none => str "null"
  | some i => encodeInt i

/-- Parse an optional integer (`null` or a decimal integer). -/
def parseOptInt (s : List Char) : Option (Option Int × List Char) :=
  match s with
  | [] => none
  | c :: rest =>
    if c = 'n' then (parseLit (str "ull") rest).map (fun r => (none, r))
    else (parseInt (c :: rest)).map (fun p => (some p.1, p.2))

/-- Consume a single expected character. -/
def expectChar (c : Char) : List Char → Option (List Char)
  | [] => none
  | d :: rest => if d = c then some rest else none

/-! ## JSON values and maps

Application metadata values (`serde_json::Value`) are modelled by `JVal`:
a string value, or a non-finite floating point number - the one shape that
serde_json refuses to serialize, which gives the model its fallible
serialization path. -/

/-- Model of a `serde_json::Value` stored in application metadata. -/
inductive JVal where
  | jstr (s : List Char)
  | jnan
  deriving DecidableEq

/-- Serialize a JSON value; fails (as serde_json does) on a non-finite
number. -/
def encodeJVal : JVal → Option (List Char)
  | JVal.jstr s => some (encodeString s)
  | JVal.jnan => none

/-- Parse a JSON value (only string values ever appear in serialized
output). -/
def parseJVal (s : List Char) : Option (JVal × List Char) :=
  (parseString s).map (fun p => (JVal.jstr p.1, p.2))

/-- Association list modelling a `HashMap<String, Value>`. -/
abbrev AList := List (List Char × JVal)

/-- `HashMap::insert`: replace the value when the key is present, otherwise
add the binding. -/
def insertKV (m : AList) (k : List Char) (v : JVal) : AList :=
  if m.any (fun kv => kv.1 = k) then
    m.map (fun kv => if kv.1 = k then (k, v) else kv)
  else m ++ [(k, v)]

/-- `HashMap::extend`: insert every binding of the second map. -/
def extendKV (m other : AList) : AList :=
  other.foldl (fun acc kv => insertKV acc kv.1 kv.2) m

/-- Serialize one key/value pair of a JSON object. -/
def encodePair (kv : List Char × JVal) : Option (List Char) :=
  (encodeJVal kv.2).map (fun v => encodeString kv.1 ++ ':' :: v)

/-- Serialize the comma-separated pair list of a JSON object body. -/
def encodePairs : AList → Option (List Char)
  | [] => some []
  | [kv] => encodePair kv
  | kv :: rest => do
    let a ← encodePair kv
    let b ← encodePairs rest
    some (a ++ ',' :: b)

/-- Serialize a JSON object from an association list. -/
def encodeMap (ps : AList) : Option (List Char) :=
  (encodePairs ps).map (fun l => lbrace :: (l ++ [rbrace]))

/-- Parse one key/value pair of a JSON object. -/
def parsePair (s : List Char) : Option ((List Char × JVal) × List Char) := do
  let (k, s1) ← parseString s
  let s2 ← expectChar ':' s1
  let (v, s3) ← parseJVal s2
  some ((k, v), s3)

/-- Parse one or more comma-separated pairs, with explicit fuel bounding the
number of pairs. -/
def parsePairs : Nat → List Char → Option (AList × List Char)
  | 0, _ => none
  | fuel + 1, s => do
    let (kv, s1) ← parsePair s
    match s1 with
    | [] => some ([kv], [])
    | c :: s2 =>
      if c = ',' then (parsePairs fuel s2).map (fun p => (kv :: p.1, p.2))
      else some ([kv], c :: s2)

/-- Parse a JSON object into an association list. -/
def parseMap (s : List Char) : Option (AList × List Char) :=
  match s with
  | [] => none
  | c :: rest =>
    if c = lbrace then
      match rest with
      | [] => none
      | d :: rest2 =>
        if d = rbrace then some ([], rest2)
        else do
          let (ps, s1) ← parsePairs rest.length rest
          let s2 ← expectChar rbrace s1
          some (ps, s2)
    else none

/-! ## Action model

Model of `crate::kernel::Action` with the fields that matter to the commit
pipeline claims. Each variant serializes to a single-line JSON object keyed
by the variant tag, mirroring the serde representation of the log actions. -/

/-- Model of an application transaction (`Txn` action payload). -/
structure TransactionM where
  appId : List Char
  version : Int
  lastUpdated : Option Int
  deriving DecidableEq

/-- Model of a `CommitInfo` action payload: timestamp, operation name and the
free-form info map. -/
structure CommitInfoM where
  timestamp : Option Int
  operation : List Char
  info : AList
  deriving DecidableEq

/-- Model of the log action variants. -/
inductive Action where
  | metaData (id : List Char) (schemaString : List Char)
  | protocol (minReaderVersion : Nat) (minWriterVersion : Nat)
  | add (path : List Char) (dataChange : Bool)
  | remove (path : List Char) (dataChange : Bool)
  | cdc (path : List Char)
  | txn (t : TransactionM)
  | commitInfo (ci : CommitInfoM)
  | domainMetadata (domain : List Char) (configuration : List Char)
  deriving DecidableEq

/-- Serialize a named field of a JSON object. -/
def jfield (name : String) (v : List Char) : List Char :=
  encodeString (str name) ++ ':' :: v

/-- Wrap a serialized payload as the single-line tagged JSON object of one
action. -/
def jwrap (tag : String) (payload : List Char) : List Char :=
  lbrace :: (encodeString (str tag) ++ ':' :: lbrace :: (payload ++ [rbrace, rbrace]))

/-- Serialize one action to its single-line JSON object, mirroring
`serde_json::to_string`; fails when the commit info map contains a
non-serializable value. -/
def serializeAction : Action → Option (List Char)
  | Action.metaData id schemaString =>
    some (jwrap "metaData"
      (jfield "id" (encodeString id) ++ ',' :: jfield "schemaString" (encodeString schemaString)))
  | Action.protocol r w =>
    some (jwrap "protocol"
      (jfield "minReaderVersion" (encodeNat r) ++ ',' :: jfield "minWriterVersion" (encodeNat w)))
  | Action.add path dc =>
    some (jwrap "add"
      (jfield "path" (encodeString path) ++ ',' :: jfield "dataChange" (encodeBool dc)))
  | Action.remove path dc =>
    some (jwrap "remove"
      (jfield "path" (encodeString path) ++ ',' :: jfield "dataChange" (encodeBool dc)))
  | Action.cdc path =>
    some (jwrap "cdc" (jfield "path" (encodeString path)))
  | Action.txn t =>
    some (jwrap "txn"
      (jfield "appId" (encodeString t.appId) ++ ',' :: jfield "version" (encodeInt t.version)
        ++ ',' :: jfield "lastUpdated" (encodeOptInt t.lastUpdated)))
  | Action.commitInfo ci =>
    (encodeMap ci.info).map (fun m =>
      jwrap "commitInfo"
        (jfield "timestamp" (encodeOptInt ci.timestamp) ++ ',' :: jfield "operation" (encodeString ci.operation)
          ++ ',' :: jfield "info" m))
  | Action.domainMetadata d cfg =>
    some (jwrap "domainMetadata"
      (jfield "domain" (encodeString d) ++ ',' :: jfield "configuration" (encodeString cfg)))

/-- Parse a field key (string literal plus colon). -/
def parseKey (name : String) (s : List Char) : Option (List Char) := do
  let (k, s1) ← parseString s
  if k = str name then expectChar ':' s1 else none

/-- Expect the two closing braces of a tagged action object and the end of
the line. -/
def parseEnd (s : List Char) : Option Unit := do
  let s1 ← expectChar rbrace s
  let s2 ← expectChar rbrace s1
  if s2 = [] then some () else none

/-- Parse the payload of a `metaData` action. -/
def parseMetaData (s : List Char) : Option Action := do
  let s1 ← parseKey "id" s
  let (id, s2) ← parseString s1
  let s3 ← expectChar ',' s2
  let s4 ← parseKey "schemaString" s3
  let (ss, s5) ← parseString s4
  let _ ← parseEnd s5
  some (Action.metaData id ss)

/-- Parse the payload of a `protocol` action. -/
def parseProtocol (s : List Char) : Option Action := do
  let s1 ← parseKey "minReaderVersion" s
  let (r, s2) ← parseNat s1
  let s3 ← expectChar ',' s2
  let s4 ← parseKey "minWriterVersion" s3
  let (w, s5) ← parseNat s4
  let _ ← parseEnd s5
  some (Action.protocol r w)

/-- Parse the payload of an `add` action. -/
def parseAdd (s : List Char) : Option Action := do
  let s1 ← parseKey "path" s
  let (p, s2) ← parseString s1
  let s3 ← expectChar ',' s2
  let s4 ← parseKey "dataChange" s3
  let (dc, s5) ← parseBool s4
  let _ ← parseEnd s5
  some (Action.add p dc)

/-- Parse the payload of a `remove` action. -/
def parseRemove (s : List Char) : Option Action := do
  let s1 ← parseKey "path" s
  let (p, s2) ← parseString s1
  let s3 ← expectChar ',' s2
  let s4 ← parseKey "dataChange" s3
  let (dc, s5) ← parseBool s4
  let _ ← parseEnd s5
  some (Action.remove p dc)

/-- Parse the payload of a `cdc` action. -/
def parseCdc (s : List Char) : Option Action := do
  let s1 ← parseKey "path" s
  let (p, s2) ← parseString s1
  let _ ← parseEnd s2
  some (Action.cdc p)

/-- Parse the payload of a `txn` action. -/
def parseTxn (s : List Char) : Option Action := do
  let s1 ← parseKey "appId" s
  let (a, s2) ← parseString s1
  let s3 ← expectChar ',' s2
  let s4 ← parseKey "version" s3
  let (v, s5) ← parseInt s4
  let s6 ← expectChar ',' s5
  let s7 ← parseKey "lastUpdated" s6
  let (lu, s8) ← parseOptInt s7
  let _ ← parseEnd s8
  some (Action.txn ⟨a, v, lu⟩)

/-- Parse the payload of a `commitInfo` action. -/
def parseCommitInfo (s : List Char) : Option Action := do
  let s1 ← parseKey "timestamp" s
  let (ts, s2) ← parseOptInt s1
  let s3 ← expectChar ',' s2
  let s4 ← parseKey "operation" s3
  let (op, s5) ← parseString s4
  let s6 ← expectChar ',' s5
  let s7 ← parseKey "info" s6
  let (info, s8) ← parseMap s7
  let _ ← parseEnd s8
  some (Action.commitInfo ⟨ts, op, info⟩)

/-- Parse the payload of a `domainMetadata` action. -/
def parseDomainMetadata (s : List Char) : Option Action := do
  let s1 ← parseKey "domain" s
  let (d, s2) ← parseString s1
  let s3 ← expectChar ',' s2
  let s4 ← parseKey "configuration" s3
  let (cfg, s5) ← parseString s4
  let _ ← parseEnd s5
  some (Action.domainMetadata d cfg)

/-- Parse one single-line JSON action object, the inverse of
`serializeAction` on serialized output. -/
def parseAction (s : List Char) : Option Action :=
  match s with
  | [] => none
  | c :: rest =>
    if c = lbrace then do
      let (tag, s1) ← parseString rest
      let s2 ← expectChar ':' s1
      let s3 ← expectChar lbrace s2
      if tag = str "metaData" then parseMetaData s3
      else if tag = str "protocol" then parseProtocol s3
      else if tag = str "add" then parseAdd s3
      else if tag = str "remove" then parseRemove s3
      else if tag = str "cdc" then parseCdc s3
      else if tag = str "txn" then parseTxn s3
      else if tag = str "commitInfo" then parseCommitInfo s3
      else if tag = str "domainMetadata" then parseDomainMetadata s3
      else none
    else none

/-! ## Error taxonomy

Model of `TransactionError` from the transaction module, with payloads
reduced to what distinguishes the kinds. -/

/-- Model of `TransactionError`. -/
inductive TransactionError where
  | versionAlreadyExists (v : Int)
  | serializeLogJson
  | objectStore (code : Nat)
  | commitConflict (kind : Nat)
  | maxCommitAttempts (n : Int)
  | deltaTableAppendOnly
  | unsupportedReaderFeatures
  | unsupportedWriterFeatures
  | writerFeaturesRequired
  | readerFeaturesRequired
  | logStoreError (msg : List Char)
  deriving DecidableEq

instance {ε α : Type} [DecidableEq ε] [DecidableEq α] : DecidableEq (Except ε α) := fun a b =>
  match a, b with
  | Except.ok x, Except.ok y =>
    if h : x = y then isTrue (by rw [h]) else isFalse (by intro hc; cases hc; exact h rfl)
  | Except.error x, Except.error y =>
    if h : x = y then isTrue (by rw [h]) else isFalse (by intro hc; cases hc; exact h rfl)
  | Except.ok _, Except.error _ => isFalse (by intro hc; cases hc)
  | Except.error _, Except.ok _ => isFalse (by intro hc; cases hc)

/-- Test whether an error is the recoverable `VersionAlreadyExists` kind. -/
def isVAE : TransactionError → Bool
  | TransactionError.versionAlreadyExists _ => true
  | _ => false

/-! ## CommitData -/

/-- Model of `DeltaOperation` as consumed by `CommitData`: its name and the
fields its `get_commit_info` contributes to the commit info map. The
operation enumeration itself lives outside the analysed sources, so only the
interface used by the transaction module is modelled. -/
structure DeltaOperation where
  name : List Char
  commitInfoFields : AList
  deriving DecidableEq

/-- Modelled from the spec: `DeltaOperation::get_commit_info` (defined in the
protocol module, outside the analysed sources) produces a `CommitInfo`
describing why the commit happened; its timestamp is not yet stamped. -/
def DeltaOperation.get_commit_info (op : DeltaOperation) : CommitInfoM :=
  { timestamp := none, operation := op.name, info := op.commitInfoFields }

/-- Modelled from the spec: the client version string baked into
`format!("delta-rs.{}", crate_version())`; the crate version constant lives
outside the analysed sources, its concrete value is irrelevant here. -/
def crate_version : List Char := str "0.0.0"

/-- Test for a `CommitInfo` action. -/
def isCommitInfoAction : Action → Bool
  | Action.commitInfo _ => true
  | _ => false

/-- Test for a `Txn` action. -/
def isTxnAction : Action → Bool
  | Action.txn _ => true
  | _ => false

/-- Model of `CommitData`. -/
structure CommitData where
  actions : List Action
  operation : DeltaOperation
  app_metadata : AList
  app_transactions : List TransactionM
  deriving DecidableEq

/-- Model of `CommitData::new`. The wall clock read (`Utc::now`) is passed in
explicitly as `now`. When no `CommitInfo` action is present one is
synthesized: the operation's commit info is stamped with `now`, the client
version is inserted into the metadata map, the operation's info fields are
merged over it, and the result becomes the commit info's map. One `Txn`
action is appended per application transaction. -/
def CommitData.new (now : Int) (actions0 : List Action) (operation : DeltaOperation)
    (app_metadata0 : AList) (app_transactions : List TransactionM) : CommitData :=
  let p :=
    if actions0.any isCommitInfoAction then (actions0, app_metadata0)
    else
      let ci0 := operation.get_commit_info
      let md1 := insertKV app_metadata0 (str "clientVersion")
        (JVal.jstr (str "delta-rs." ++ crate_version))
      let md2 := extendKV md1 ci0.info
      let ci1 : CommitInfoM := { timestamp := some now, operation := ci0.operation, info := md2 }
      (actions0 ++ [Action.commitInfo ci1], md2)
  { actions := p.1 ++ app_transactions.map Action.txn,
    operation := operation,
    app_metadata := p.2,
    app_transactions := app_transactions }

/-- Model of `CommitData::get_bytes`: serialize every action to its JSON
line and join the lines with a newline separator (no trailing newline); a
serialization failure surfaces as `SerializeLogJson`. -/
def CommitData.get_bytes (c : CommitData) : Except TransactionError (List Char) :=
  match c.actions.mapM serializeAction with
  | some jsons => Except.ok (List.intercalate ['\n'] jsons)
  | none => Except.error TransactionError.serializeLogJson

/-- Parse commit payload bytes line by line back into actions. -/
def parseCommitBytes (s : List Char) : Option (List Action) :=
  (if s.isEmpty then [] else s.splitOn '\n').mapM parseAction

/-! ## Commit pipeline: prepare stage -/

/-- Model of `CommitOrBytes`. -/
inductive CommitOrBytes where
  | logBytes (bytes : List Char)
  | tmpCommit (path : List Char)
  deriving DecidableEq

/-- The staged temporary commit path
`_delta_log/_commit_<token>.json.tmp` (segments joined by `/` as
`Path::from_iter` does). -/
def tmp_commit_path (token : List Char) : List Char :=
  str "_delta_log" ++ '/' :: (str "_commit_" ++ token ++ str ".json.tmp")

/-- Oracle for the prepare stage: the log store's driver name, the fresh
uuid token used for the staged path, the outcome of the staging `put`, and
the outcome of the protocol gate (`PROTOCOL.can_commit`, defined in the
protocol module outside the analysed sources). -/
structure PrepareEnv where
  storeName : List Char
  token : List Char
  putRes : Except TransactionError Unit
  canCommitRes : Except TransactionError Unit

/-- External call performed by the prepare stage. -/
inductive PrepareEvent where
  | putStaged (path : List Char)
  deriving DecidableEq

/-- Model of `PreCommit::into_prepared_commit_future`: run the protocol gate
when a table reference is present, serialize the commit data, then either
keep the bytes in memory (conditional-put drivers, recognized by name) or
write them to the staged temporary path. Returns the trace of staging writes
and the resulting `CommitOrBytes`. -/
def PreCommit.into_prepared_commit_future (env : PrepareEnv) (table_data_present : Bool)
    (data : CommitData) : List PrepareEvent × Except TransactionError CommitOrBytes :=
  match (if table_data_present then env.canCommitRes else Except.ok ()) with
  | Except.error e => ([], Except.error e)
  | Except.ok _ =>
    match data.get_bytes with
    | Except.error e => ([], Except.error e)
    | Except.ok log_entry =>
      if env.storeName = str "LakeFSLogStore" ∨ env.storeName = str "DefaultLogStore" then
        ([], Except.ok (CommitOrBytes.logBytes log_entry))
      else
        match env.putRes with
        | Except.error e => ([PrepareEvent.putStaged (tmp_commit_path env.token)], Except.error e)
        | Except.ok _ =>
          ([PrepareEvent.putStaged (tmp_commit_path env.token)],
            Except.ok (CommitOrBytes.tmpCommit (tmp_commit_path env.token)))

/-! ## Commit pipeline: finalize stage (the retry loop) -/

/-- Model of `PostCommitHookProperties`. -/
structure PostCommitHookProperties where
  create_checkpoint : Bool
  cleanup_expired_logs : Option Bool
  deriving DecidableEq

/-- Model of the `PostCommit` value produced by the finalize stage, with the
commit metrics inlined as `num_retries`. -/
structure PostCommitM where
  version : Int
  create_checkpoint : Bool
  cleanup_expired_logs : Option Bool
  table_data_present : Bool
  num_retries : Nat
  deriving DecidableEq

/-- External calls performed by the finalize retry loop, labelled with the
attempt number that performed them. -/
inductive Event where
  | getLatestVersion (attempt : Nat) (hint : Int) (result : Except TransactionError Int)
  | conflictCheck (attempt : Nat) (winningVersion : Int)
  | snapshotUpdate (attempt : Nat) (target : Int)
  | writeCommitEntry (attempt : Nat) (version : Int) (result : Except TransactionError Unit)
  | abortCommitEntry (attempt : Nat) (version : Int)
  deriving DecidableEq

/-- Oracle for the finalize retry loop: one response function per external
call, indexed by the attempt number performing the call. `checkConflict`
bundles reading the winning commit summary, building the transaction info
and running the conflict checker for one winning version. -/
structure FinalizeEnv where
  getLatest : Nat → Int → Except TransactionError Int
  checkConflict : Nat → Int → Except TransactionError Unit
  updateSnapshot : Nat → Int → Except TransactionError Unit
  write : Nat → Int → Except TransactionError Unit
  abort : Nat → Int → Except TransactionError Unit

/-- Model of the inner conflict loop: check every winning version from
`latest - steps + 1` up to `latest` in ascending order, stopping at the
first failure. -/
def conflictLoop (env : FinalizeEnv) (attempt : Nat) (latest : Int) :
    Nat → List Event × Except TransactionError Unit
  | 0 => ([], Except.ok ())
  | steps + 1 =>
    let wv := latest - ((steps : Int) + 1) + 1
    match env.checkConflict attempt wv with
    | Except.error e => ([Event.conflictCheck attempt wv], Except.error e)
    | Except.ok _ =>
      let r := conflictLoop env attempt latest steps
      (Event.conflictCheck attempt wv :: r.1, r.2)

/-- Conflict resolution step of one attempt: when the observed latest
version is ahead of the snapshot, fail immediately if `max_retries` is zero,
otherwise run the conflict loop over every intervening version and update
the snapshot to `latest`. Returns the new snapshot version. -/
def resolveConflicts (env : FinalizeEnv) (max_retries : Nat) (attempt : Nat)
    (snapVer latest : Int) : List Event × Except TransactionError Int :=
  if latest > snapVer then
    if max_retries = 0 then ([], Except.error (TransactionError.maxCommitAttempts 0))
    else
      match conflictLoop env attempt latest (latest - snapVer).toNat with
      | (cevs, Except.error e) => (cevs, Except.error e)
      | (cevs, Except.ok _) =>
        match env.updateSnapshot attempt latest with
        | Except.error e => (cevs ++ [Event.snapshotUpdate attempt latest], Except.error e)
        | Except.ok _ => (cevs ++ [Event.snapshotUpdate attempt latest], Except.ok latest)
  else ([], Except.ok snapVer)

/-- Result of one iteration of the retry loop. -/
inductive StepRes where
  | success (pc : PostCommitM)
  | retry (newSnapVer : Int)
  | fail (e : TransactionError)
  deriving DecidableEq

/-- One iteration of the finalize retry loop: query the latest version,
resolve conflicts if the table advanced, then attempt to install at
`latest + 1`. A `VersionAlreadyExists` outcome requests a retry; any other
install error triggers `abort_commit_entry` (whose own failure, if any, is
the propagated error). -/
def attemptStep (env : FinalizeEnv) (post_commit : Option PostCommitHookProperties)
    (max_retries : Nat) (snapVer : Int) (attempt : Nat) : List Event × StepRes :=
  match env.getLatest attempt snapVer with
  | Except.error e =>
    ([Event.getLatestVersion attempt snapVer (Except.error e)], StepRes.fail e)
  | Except.ok latest =>
    let ev0 := Event.getLatestVersion attempt snapVer (Except.ok latest)
    match resolveConflicts env max_retries attempt snapVer latest with
    | (evs, Except.error e) => (ev0 :: evs, StepRes.fail e)
    | (evs, Except.ok snapVer2) =>
      let version := latest + 1
      match env.write attempt version with
      | Except.ok _ =>
        (ev0 :: evs ++ [Event.writeCommitEntry attempt version (Except.ok ())],
          StepRes.success
            { version := version,
              create_checkpoint :=
                (post_commit.map PostCommitHookProperties.create_checkpoint).getD false,
              cleanup_expired_logs :=
                (post_commit.map PostCommitHookProperties.cleanup_expired_logs).getD none,
              table_data_present := true,
              num_retries := attempt - 1 })
      | Except.error e =>
        if isVAE e then
          (ev0 :: evs ++ [Event.writeCommitEntry attempt version (Except.error e)],
            StepRes.retry snapVer2)
        else
          match env.abort attempt version with
          | Except.ok _ =>
            (ev0 :: evs
                ++ [Event.writeCommitEntry attempt version (Except.error e),
                    Event.abortCommitEntry attempt version],
              StepRes.fail e)
          | Except.error e2 =>
            (ev0 :: evs
                ++ [Event.writeCommitEntry attempt version (Except.error e),
                    Event.abortCommitEntry attempt version],
              StepRes.fail e2)

/-- The finalize retry loop. The fuel is `total_retries + 1 - attempt`,
mirroring `while attempt_number <= total_retries`; exhaustion yields
`MaxCommitAttempts(max_retries)`. -/
def finalizeLoop (env : FinalizeEnv) (post_commit : Option PostCommitHookProperties)
    (max_retries : Nat) (snapVer : Int) (attempt : Nat) :
    Nat → List Event × Except TransactionError PostCommitM
  | 0 => ([], Except.error (TransactionError.maxCommitAttempts (max_retries : Int)))
  | fuel + 1 =>
    match attemptStep env post_commit max_retries snapVer attempt with
    | (evs, StepRes.success pc) => (evs, Except.ok pc)
    | (evs, StepRes.fail e) => (evs, Except.error e)
    | (evs, StepRes.retry snapVer2) =>
      let r := finalizeLoop env post_commit max_retries snapVer2 (attempt + 1) fuel
      (evs ++ r.1, r.2)

/-- Model of `PreparedCommit::into_future`. With no table reference the
payload is installed unconditionally at version 0 and any error surfaces
as-is; with a table reference the retry loop runs starting from the eager
snapshot's version with `total_retries = max_retries + 1` attempts. -/
def PreparedCommit.into_future (env : FinalizeEnv) (table_data_version : Option Int)
    (max_retries : Nat) (post_commit : Option PostCommitHookProperties) :
    List Event × Except TransactionError PostCommitM :=
  match table_data_version with
  | none =>
    match env.write 0 0 with
    | Except.ok _ =>
      ([Event.writeCommitEntry 0 0 (Except.ok ())],
        Except.ok
          { version := 0, create_checkpoint := false, cleanup_expired_logs := none,
            table_data_present := false, num_retries := 0 })
    | Except.error e =>
      ([Event.writeCommitEntry 0 0 (Except.error e)], Except.error e)
  | some snapVer => finalizeLoop env post_commit max_retries snapVer 1 (max_retries + 1)

/-- Test for an install event that observed `VersionAlreadyExists`. -/
def isVAEWrite : Event → Bool
  | Event.writeCommitEntry _ _ (Except.error e) => isVAE e
  | _ => false

/-- Count the install attempts that observed `VersionAlreadyExists`. -/
def countVAE (evs : List Event) : Nat := evs.countP isVAEWrite

/-! ## Post-commit hooks -/

/-- Model of `PostCommitMetrics`. -/
structure PostCommitMetrics where
  new_checkpoint_created : Bool
  num_log_files_cleaned_up : Nat
  deriving DecidableEq

/-- Model of the final `Metrics` of a finalized commit. -/
structure Metrics where
  num_retries : Nat
  new_checkpoint_created : Bool
  num_log_files_cleaned_up : Nat
  deriving DecidableEq

/-- External calls performed by the post-commit hook. -/
inductive HookEvent where
  | snapshotUpdate (target : Int)
  | advance
  | beforeHook (willRun : Bool)
  | createCheckpointFor (version : Int)
  | cleanupExpiredLogsFor (version : Int)
  | rematerialize
  | afterHook (willRun : Bool)
  deriving DecidableEq

/-- Oracle for the post-commit hook stage: the snapshot version held by the
table reference, the table configuration values read from the advanced
state, whether a custom execute handler is installed, and one response per
external call. -/
structure HookEnv where
  snapshotVersion : Int
  require_files : Bool
  checkpoint_interval : Int
  enable_expired_log_cleanup : Bool
  hasHandler : Bool
  updateRes : Except TransactionError Unit
  advanceRes : Except TransactionError Unit
  beforeHookRes : Except TransactionError Unit
  createCheckpointRes : Except TransactionError Unit
  cleanupCountRes : Except TransactionError Nat
  rematerializeRes : Except TransactionError Unit
  afterHookRes : Except TransactionError Unit
  tryNewRes : Except TransactionError Unit

/-- Model of `PostCommit::create_checkpoint`: skipped when the table was
loaded without files; otherwise a checkpoint is created exactly when
`(version + 1) % checkpoint_interval == 0` (Rust `%` on `i64` is truncated
remainder, `Int.tmod`). -/
def PostCommit.create_checkpoint (env : HookEnv) (version : Int) :
    List HookEvent × Except TransactionError Bool :=
  if !env.require_files then ([], Except.ok false)
  else if (version + 1).tmod env.checkpoint_interval = 0 then
    ([HookEvent.createCheckpointFor version],
      match env.createCheckpointRes with
      | Except.ok _ => Except.ok true
      | Except.error e => Except.error e)
  else ([], Except.ok false)

/-- Advance the local snapshot, updating from storage first when the
installed version is more than one ahead of the snapshot. -/
def advanceSnapshot (env : HookEnv) (version : Int) :
    List HookEvent × Except TransactionError Unit :=
  if version - env.snapshotVersion > 1 then
    match env.updateRes with
    | Except.error e => ([HookEvent.snapshotUpdate (version - 1)], Except.error e)
    | Except.ok _ =>
      ([HookEvent.snapshotUpdate (version - 1), HookEvent.advance], env.advanceRes)
  else ([HookEvent.advance], env.advanceRes)

/-- Run the before or after custom execute handler hook when installed. -/
def runHandlerHook (installed : Bool) (res : Except TransactionError Unit) (ev : HookEvent) :
    List HookEvent × Except TransactionError Unit :=
  if installed then ([ev], res) else ([], Except.ok ())

/-- The log cleanup step: invoke the expired-log collector and, when it
removed files, re-materialize the state from storage. -/
def cleanupStep (env : HookEnv) (version : Int) (cleanup_logs : Bool) :
    List HookEvent × Except TransactionError Nat :=
  if cleanup_logs then
    match env.cleanupCountRes with
    | Except.error e => ([HookEvent.cleanupExpiredLogsFor version], Except.error e)
    | Except.ok n =>
      if n > 0 then
        match env.rematerializeRes with
        | Except.error e =>
          ([HookEvent.cleanupExpiredLogsFor version, HookEvent.rematerialize], Except.error e)
        | Except.ok _ =>
          ([HookEvent.cleanupExpiredLogsFor version, HookEvent.rematerialize], Except.ok n)
      else ([HookEvent.cleanupExpiredLogsFor version], Except.ok n)
  else ([], Except.ok 0)

/-- Model of `PostCommit::run_post_commit_hook`. With table data present:
advance the snapshot, decide `cleanup_logs` from the override or the table
configuration, run the before hook, maybe create a checkpoint, maybe clean
up expired logs, run the after hook. Without table data: load the state
fresh and report empty metrics. -/
def PostCommit.run_post_commit_hook (env : HookEnv) (pc : PostCommitM) :
    List HookEvent × Except TransactionError PostCommitMetrics :=
  if pc.table_data_present then
    match advanceSnapshot env pc.version with
    | (evs0, Except.error e) => (evs0, Except.error e)
    | (evs0, Except.ok _) =>
      let cleanup_logs := pc.cleanup_expired_logs.getD env.enable_expired_log_cleanup
      match runHandlerHook env.hasHandler env.beforeHookRes
          (HookEvent.beforeHook (cleanup_logs || pc.create_checkpoint)) with
      | (evs1, Except.error e) => (evs0 ++ evs1, Except.error e)
      | (evs1, Except.ok _) =>
        match (if pc.create_checkpoint then PostCommit.create_checkpoint env pc.version
               else ([], Except.ok false)) with
        | (evs2, Except.error e) => (evs0 ++ evs1 ++ evs2, Except.error e)
        | (evs2, Except.ok new_checkpoint_created) =>
          match cleanupStep env pc.version cleanup_logs with
          | (evs3, Except.error e) => (evs0 ++ evs1 ++ evs2 ++ evs3, Except.error e)
          | (evs3, Except.ok num_cleaned) =>
            match runHandlerHook env.hasHandler env.afterHookRes
                (HookEvent.afterHook (cleanup_logs || pc.create_checkpoint)) with
            | (evs4, Except.error e) => (evs0 ++ evs1 ++ evs2 ++ evs3 ++ evs4, Except.error e)
            | (evs4, Except.ok _) =>
              (evs0 ++ evs1 ++ evs2 ++ evs3 ++ evs4,
                Except.ok
                  { new_checkpoint_created := new_checkpoint_created,
                    num_log_files_cleaned_up := num_cleaned })
  else
    match env.tryNewRes with
    | Except.error e => ([], Except.error e)
    | Except.ok _ =>
      ([], Except.ok { new_checkpoint_created := false, num_log_files_cleaned_up := 0 })

/-- Model of `PostCommit`'s `IntoFuture`: run the hooks and combine the
commit metrics with the post-commit metrics. -/
def PostCommit.into_future (env : HookEnv) (pc : PostCommitM) :
    List HookEvent × Except TransactionError Metrics :=
  match PostCommit.run_post_commit_hook env pc with
  | (evs, Except.ok m) =>
    (evs, Except.ok
      { num_retries := pc.num_retries,
        new_checkpoint_created := m.new_checkpoint_created,
        num_log_files_cleaned_up := m.num_log_files_cleaned_up })
  | (evs, Except.error e) => (evs, Except.error e)

/-! ## Partitioned parquet writer -/

/-- Model of an Arrow record batch: a schema identity and abstract rows. -/
structure RecordBatch where
  schema : Nat
  rows : List Nat
  deriving DecidableEq

/-- Model of `PartitionWriterConfig` with the fields driving `write`. -/
structure PartitionWriterConfig where
  file_schema : Nat
  target_file_size : Nat
  write_batch_size : Nat
  deriving DecidableEq

/-- Mutable state of a `PartitionWriter`: the rows buffered in the open
arrow writer and the files flushed so far. -/
structure PartitionWriterState where
  buffer : List Nat
  files_written : List (List Nat)
  deriving DecidableEq

/-- Writer errors relevant to the write path. `stepByZero` models the Rust
panic of `step_by(0)` when `write_batch_size` is zero. -/
inductive WriteError where
  | schemaMismatch (got expected : Nat)
  | stepByZero
  deriving DecidableEq

/-- Object-store side effects of the partition writer. -/
inductive WriterEvent where
  | upload (rows : List Nat)
  deriving DecidableEq

/-- Model of `flush_arrow_writer`: swap in a fresh buffer; a buffer with no
rows is discarded, otherwise its contents are uploaded and recorded. -/
def flush_arrow_writer (st : PartitionWriterState) :
    List WriterEvent × PartitionWriterState :=
  if st.buffer.isEmpty then ([], { st with buffer := [] })
  else
    ([WriterEvent.upload st.buffer],
      { buffer := [], files_written := st.files_written ++ [st.buffer] })

/-- Slice rows into consecutive chunks of `write_batch_size` (callers
guarantee a positive size). -/
def chunked (bs : Nat) : List Nat → List (List Nat)
  | [] => []
  | r :: rs => (r :: rs.take (bs - 1)) :: chunked bs (rs.drop (bs - 1))
  termination_by l => l.length
  decreasing_by simp; have := List.length_drop (bs - 1) rs; omega

/-- Feed chunks to the arrow writer one by one, flushing whenever the
estimated in-progress size (`estSize` abstracts
`buffer.len() + arrow_writer.in_progress_size()`) reaches the target file
size. -/
def writeChunks (estSize : List Nat → Nat) (cfg : PartitionWriterConfig)
    (st : PartitionWriterState) : List (List Nat) → List WriterEvent × PartitionWriterState
  | [] => ([], st)
  | ch :: rest =>
    let st1 := { st with buffer := st.buffer ++ ch }
    let fl :=
      if estSize st1.buffer ≥ cfg.target_file_size then flush_arrow_writer st1 else ([], st1)
    let r := writeChunks estSize cfg fl.2 rest
    (fl.1 ++ r.1, r.2)

/-- Model of `PartitionWriter::write`: reject a batch whose schema differs
from the configured file schema before touching any state, then feed the
rows in `write_batch_size` chunks with size-triggered flushing. Returns the
upload trace, the final writer state and the error, if any. -/
def PartitionWriter.write (estSize : List Nat → Nat) (cfg : PartitionWriterConfig)
    (st : PartitionWriterState) (batch : RecordBatch) :
    List WriterEvent × PartitionWriterState × Option WriteError :=
  if batch.schema ≠ cfg.file_schema then
    ([], st, some (WriteError.schemaMismatch batch.schema cfg.file_schema))
  else if cfg.write_batch_size = 0 then ([], st, some WriteError.stepByZero)
  else
    let r := writeChunks estSize cfg st (chunked cfg.write_batch_size batch.rows)
    (r.1, r.2, none)

/-! ## Round-trip lemmas for the serialization primitives -/

theorem parseStrBody_escape (s rest : List Char) :
    parseStrBody (escape s ++ '"' :: rest) = some (s, rest) := by
  induction s with
  | nil => simp [escape, parseStrBody.eq_def]
  | cons c cs ih =>
    by_cases h1 : c = '\\'
    · subst h1
      simp only [escape, if_pos rfl, List.cons_append, List.nil_append]
      rw [parseStrBody.eq_def]
      simp [ih]
    · by_cases h2 : c = '"'
      · subst h2
        simp only [escape, if_neg (by decide : ¬('"' = '\\')), if_pos rfl, List.cons_append,
          List.nil_append]
        rw [parseStrBody.eq_def]
        simp [ih]
      · by_cases h3 : c = '\n'
        · subst h3
          simp only [escape, if_neg (by decide : ¬('\n' = '\\')),
            if_neg (by decide : ¬('\n' = '"')), if_pos rfl, List.cons_append, List.nil_append]
          rw [parseStrBody.eq_def]
          simp [ih]
        · simp only [escape, if_neg h1, if_neg h2, if_neg h3, List.cons_append, List.nil_append]
          rw [parseStrBody.eq_def]
          simp [h1, h2, ih]

theorem parseString_encodeString (s rest : List Char) :
    parseString (encodeString s ++ rest) = some (s, rest) := by
  have h : encodeString s ++ rest = '"' :: (escape s ++ '"' :: rest) := by
    simp [encodeString]
  rw [h]
  simp [parseString, parseStrBody_escape]

theorem newline_not_mem_escape (s : List Char) : '\n' ∉ escape s := by
  induction s with
  | nil => simp [escape]
  | cons c cs ih =>
    by_cases h1 : c = '\\'
    · subst h1; simp [escape, ih]
    · by_cases h2 : c = '"'
      · subst h2; simp [escape, ih]
      · by_cases h3 : c = '\n'
        · subst h3; simp [escape, ih]
        · simp [escape, h1, h2, h3, ih]
          exact fun h => absurd h.symm h3

theorem newline_not_mem_encodeString (s : List Char) : '\n' ∉ encodeString s := by
  simp [encodeString, newline_not_mem_escape]

theorem isDig_digitChar {d : Nat} (h : d < 10) : isDig (digitChar d) = true := by
  interval_cases d <;> decide

theorem digitVal_digitChar {d : Nat} (h : d < 10) : digitVal (digitChar d) = d := by
  interval_cases d <;> decide

theorem isDig_spec {c : Char} (h : isDig c = true) :
    c ≠ '\n' ∧ c ≠ '-' ∧ c ≠ 'n' ∧ c ≠ '"' := by
  refine ⟨?_, ?_, ?_, ?_⟩ <;> (intro hc; subst hc; simp [isDig] at h)

theorem natDigitsAux_eq {fuel n : Nat} (h : n ≤ fuel) :
    natDigitsAux fuel n = Nat.digits 10 n := by
  induction fuel generalizing n with
  | zero =>
    interval_cases n
    simp [natDigitsAux]
  | succ fuel ih =>
    match n with
    | 0 => simp [natDigitsAux]
    | m + 1 =>
      have hd : (m + 1) / 10 < m + 1 := Nat.div_lt_self (Nat.succ_pos m) (by norm_num)
      rw [natDigitsAux, ih (by omega),
        Nat.digits_def' (by norm_num : (1 : ℕ) < 10) (Nat.succ_pos m)]

theorem natDigits_eq (n : Nat) : natDigits n = Nat.digits 10 n :=
  natDigitsAux_eq le_rfl

theorem mem_encodeNat {c : Char} {n : Nat} (h : c ∈ encodeNat n) : isDig c = true := by
  unfold encodeNat at h
  split at h
  · simp at h
    subst h
    decide
  · simp [natDigits_eq] at h
    obtain ⟨d, hd, hc⟩ := h
    subst hc
    exact isDig_digitChar (Nat.digits_lt_base (by norm_num) hd)

theorem encodeNat_ne_nil (n : Nat) : encodeNat n ≠ [] := by
  unfold encodeNat
  split
  · simp
  · simp [natDigits_eq]
    next h => simpa using Nat.digits_ne_nil_iff_ne_zero.2 h

theorem takeWhile_append_eq {p : Char → Bool} (l1 l2 : List Char)
    (h1 : ∀ c ∈ l1, p c = true) (h2 : ∀ c, l2.head? = some c → p c = false) :
    (l1 ++ l2).takeWhile p = l1 := by
  induction l1 with
  | nil =>
    cases l2 with
    | nil => rfl
    | cons c t => simp [List.takeWhile_cons, h2 c rfl]
  | cons a l ih =>
    simp only [List.cons_append, List.takeWhile_cons, h1 a (by simp)]
    simp [ih (fun c hc => h1 c (by simp [hc]))]

theorem dropWhile_append_eq {p : Char → Bool} (l1 l2 : List Char)
    (h1 : ∀ c ∈ l1, p c = true) (h2 : ∀ c, l2.head? = some c → p c = false) :
    (l1 ++ l2).dropWhile p = l2 := by
  induction l1 with
  | nil =>
    cases l2 with
    | nil => rfl
    | cons c t => simp [List.dropWhile_cons, h2 c rfl]
  | cons a l ih =>
    simp only [List.cons_append, List.dropWhile_cons, h1 a (by simp)]
    simp [ih (fun c hc => h1 c (by simp [hc]))]

theorem headNotDig_head {rest : List Char} (h : headNotDig rest = true) :
    ∀ c, rest.head? = some c → isDig c = false := by
  intro c hc
  cases rest with
  | nil => simp at hc
  | cons d t =>
    simp at hc
    subst hc
    simpa [headNotDig] using h

theorem parseNat_encodeNat (n : Nat) (rest : List Char) (h : headNotDig rest = true) :
    parseNat (encodeNat n ++ rest) = some (n, rest) := by
  have hall : ∀ c ∈ encodeNat n, isDig c = true := fun c hc => mem_encodeNat hc
  have ht := takeWhile_append_eq (p := isDig) (encodeNat n) rest hall (headNotDig_head h)
  have hd := dropWhile_append_eq (p := isDig) (encodeNat n) rest hall (headNotDig_head h)
  unfold parseNat
  simp only [ht, hd]
  rw [if_neg (by simpa using encodeNat_ne_nil n)]
  congr 1
  refine Prod.ext ?_ rfl
  show Nat.ofDigits 10 (((encodeNat n).map digitVal).reverse) = n
  unfold encodeNat
  split
  · next hn => subst hn; simp [digitVal]
  · next hn =>
    have hmap : ((natDigits n).reverse.map digitChar).map digitVal = (natDigits n).reverse := by
      rw [List.map_map]
      refine List.map_congr_left ?_ |>.trans (List.map_id _)
      intro d hd
      simp only [Function.comp_apply, id_eq]
      exact digitVal_digitChar
        (Nat.digits_lt_base (by norm_num) (by simpa [natDigits_eq] using hd))
    rw [hmap, List.reverse_reverse, natDigits_eq, Nat.ofDigits_digits]

theorem parseInt_encodeInt (i : Int) (rest : List Char) (h : headNotDig rest = true) :
    parseInt (encodeInt i ++ rest) = some (i, rest) := by
  by_cases hi : i < 0
  · have he : encodeInt i = '-' :: encodeNat i.natAbs := by
      unfold encodeInt; rw [if_pos hi]
    rw [he, List.cons_append]
    simp only [parseInt]
    rw [if_true, parseNat_encodeNat _ _ h]
    simp only [Option.map_some']
    have hv : -((i.natAbs : Nat) : Int) = i := by omega
    rw [hv]
  · have he : encodeInt i = encodeNat i.natAbs := by
      unfold encodeInt; rw [if_neg hi]
    rw [he]
    obtain ⟨c, t, hct⟩ : ∃ c t, encodeNat i.natAbs = c :: t := by
      cases hn : encodeNat i.natAbs with
      | nil => exact absurd hn (encodeNat_ne_nil _)
      | cons c t => exact ⟨c, t, rfl⟩
    have hmem : c ∈ encodeNat i.natAbs := by simp [hct]
    have hc : isDig c = true := mem_encodeNat hmem
    rw [hct, List.cons_append]
    simp only [parseInt]
    rw [if_neg (isDig_spec hc).2.1, ← List.cons_append, ← hct, parseNat_encodeNat _ _ h]
    simp only [Option.map_some']
    have hv : ((i.natAbs : Nat) : Int) = i := by omega
    rw [hv]

theorem take_len_append (l1 l2 : List Char) : (l1 ++ l2).take l1.length = l1 := by
  induction l1 <;> simp [*]

theorem drop_len_append (l1 l2 : List Char) : (l1 ++ l2).drop l1.length = l2 := by
  induction l1 <;> simp [*]

theorem parseLit_pre (lit rest : List Char) : parseLit lit (lit ++ rest) = some rest := by
  simp [parseLit, take_len_append, drop_len_append]

theorem parseOptInt_encodeOptInt (o : Option Int) (rest : List Char)
    (h : headNotDig rest = true) :
    parseOptInt (encodeOptInt o ++ rest) = some (o, rest) := by
  cases o with
  | none =>
    show parseOptInt ('n' :: (str "ull" ++ rest)) = some (none, rest)
    simp [parseOptInt, parseLit_pre]
  | some i =>
    have he : encodeOptInt (some i) = encodeInt i := rfl
    rw [he]
    by_cases hi : i < 0
    · have he2 : encodeInt i = '-' :: encodeNat i.natAbs := by
        unfold encodeInt; rw [if_pos hi]
      rw [he2, List.cons_append]
      simp only [parseOptInt]
      rw [if_neg (by decide : ¬('-' = 'n')), ← List.cons_append, ← he2,
        parseInt_encodeInt _ _ h]
      rfl
    · have he2 : encodeInt i = encodeNat i.natAbs := by
        unfold encodeInt; rw [if_neg hi]
      rw [he2]
      obtain ⟨c, t, hct⟩ : ∃ c t, encodeNat i.natAbs = c :: t := by
        cases hn : encodeNat i.natAbs with
        | nil => exact absurd hn (encodeNat_ne_nil _)
        | cons c t => exact ⟨c, t, rfl⟩
      have hmem : c ∈ encodeNat i.natAbs := by simp [hct]
      have hc : isDig c = true := mem_encodeNat hmem
      rw [hct, List.cons_append]
      simp only [parseOptInt]
      rw [if_neg (isDig_spec hc).2.2.1, ← List.cons_append, ← hct, ← he2,
        parseInt_encodeInt _ _ h]
      rfl

theorem parseBool_encodeBool (b : Bool) (rest : List Char) :
    parseBool (encodeBool b ++ rest) = some (b, rest) := by
  cases b with
  | true =>
    show parseBool ('t' :: 'r' :: 'u' :: 'e' :: rest) = some (true, rest)
    rw [parseBool, if_pos (by simp [str, List.take])]
    simp [List.drop]
  | false =>
    show parseBool ('f' :: 'a' :: 'l' :: 's' :: 'e' :: rest) = some (false, rest)
    rw [parseBool, if_neg (by simp [str, List.take]), if_pos (by simp [str, List.take])]
    simp [List.drop]

theorem expectChar_pre (c : Char) (rest : List Char) : expectChar c (c :: rest) = some rest := by
  simp [expectChar]

theorem parseKey_jfield (name : String) (v rest : List Char) :
    parseKey name (jfield name v ++ rest) = some (v ++ rest) := by
  have h : jfield name v ++ rest = encodeString (str name) ++ (':' :: (v ++ rest)) := by
    simp [jfield]
  rw [h]
  simp [parseKey, parseString_encodeString, expectChar_pre]

/-! ## Round-trip lemmas for JSON objects -/

theorem parsePair_encodePair {kv : List Char × JVal} {pl : List Char}
    (h : encodePair kv = some pl) (rest : List Char) :
    parsePair (pl ++ rest) = some (kv, rest) := by
  obtain ⟨k, v⟩ := kv
  cases v with
  | jnan => simp [encodePair, encodeJVal] at h
  | jstr s =>
    simp only [encodePair, encodeJVal, Option.map_some', Option.some.injEq] at h
    subst h
    have hsh : (encodeString k ++ ':' :: encodeString s) ++ rest
        = encodeString k ++ (':' :: (encodeString s ++ rest)) := by simp
    rw [hsh]
    simp [parsePair, parseString_encodeString, expectChar_pre, parseJVal]

theorem encodePair_head {kv : List Char × JVal} {pl : List Char}
    (h : encodePair kv = some pl) : ∃ t, pl = '"' :: t := by
  obtain ⟨k, v⟩ := kv
  cases v with
  | jnan => simp [encodePair, encodeJVal] at h
  | jstr s =>
    simp only [encodePair, encodeJVal, Option.map_some', Option.some.injEq] at h
    exact ⟨_, h.symm⟩

theorem encodePairs_length {ps : AList} {pl : List Char} (hne : ps ≠ [])
    (h : encodePairs ps = some pl) : ps.length ≤ pl.length := by
  induction ps generalizing pl with
  | nil => exact absurd rfl hne
  | cons kv tl ih =>
    cases tl with
    | nil =>
      have h1 : encodePair kv = some pl := h
      obtain ⟨t, ht⟩ := encodePair_head h1
      subst ht
      simp
    | cons kv2 tl2 =>
      rw [show encodePairs (kv :: kv2 :: tl2) = do
          let a ← encodePair kv
          let b ← encodePairs (kv2 :: tl2)
          some (a ++ ',' :: b) from rfl] at h
      cases ha : encodePair kv with
      | none => rw [ha] at h; simp at h
      | some a =>
        rw [ha] at h
        cases hb : encodePairs (kv2 :: tl2) with
        | none => rw [hb] at h; simp at h
        | some b =>
          rw [hb] at h
          simp only [Option.bind_eq_bind, Option.some_bind, Option.some.injEq] at h
          obtain ⟨t, hat⟩ := encodePair_head ha
          have hlb := ih (by simp) hb
          cases h
          subst hat
          simp at hlb ⊢
          omega

theorem headIsNot_comma_rbrace (rest : List Char) :
    ∀ c, (rbrace :: rest).head? = some c → c ≠ ',' := by
  intro c hc
  simp at hc
  subst hc
  decide

theorem parsePairs_encodePairs {ps : AList} {pl : List Char} (hne : ps ≠ [])
    (h : encodePairs ps = some pl) (rest : List Char)
    (hrest : ∀ c, rest.head? = some c → c ≠ ',') :
    ∀ fuel, ps.length ≤ fuel → parsePairs fuel (pl ++ rest) = some (ps, rest) := by
  induction ps generalizing pl rest with
  | nil => exact absurd rfl hne
  | cons kv tl ih =>
    intro fuel hfuel
    cases fuel with
    | zero => simp at hfuel
    | succ fuel =>
      cases tl with
      | nil =>
        have hp : encodePair kv = some pl := h
        simp only [parsePairs, parsePair_encodePair hp rest, Option.some_bind]
        cases rest with
        | nil => rfl
        | cons c s2 =>
          have := hrest c rfl
          simp [this]
      | cons kv2 tl2 =>
        rw [show encodePairs (kv :: kv2 :: tl2) = do
            let a ← encodePair kv
            let b ← encodePairs (kv2 :: tl2)
            some (a ++ ',' :: b) from rfl] at h
        cases ha : encodePair kv with
        | none => rw [ha] at h; simp at h
        | some a =>
          rw [ha] at h
          cases hb : encodePairs (kv2 :: tl2) with
          | none => rw [hb] at h; simp at h
          | some b =>
            rw [hb] at h
            simp only [Option.bind_eq_bind, Option.some_bind, Option.some.injEq] at h
            cases h
            have hsh : (a ++ ',' :: b) ++ rest = a ++ (',' :: (b ++ rest)) := by simp
            rw [hsh]
            simp only [parsePairs, parsePair_encodePair ha, Option.bind_eq_bind,
              Option.some_bind]
            rw [if_true, ih (by simp) hb rest hrest fuel (by simpa using hfuel)]
            rfl

theorem parseMap_encodeMap {ps : AList} {l : List Char} (h : encodeMap ps = some l)
    (rest : List Char) : parseMap (l ++ rest) = some (ps, rest) := by
  cases ps with
  | nil =>
    have hl : l = [lbrace, rbrace] := by
      simpa [encodeMap, encodePairs] using h.symm
    subst hl
    simp [parseMap]
  | cons kv tl =>
    cases hpl : encodePairs (kv :: tl) with
    | none => simp [encodeMap, hpl] at h
    | some pl =>
      have hl : l = lbrace :: (pl ++ [rbrace]) := by
        rw [encodeMap, hpl] at h
        simpa using h.symm
      subst hl
      obtain ⟨c0, t0, hc0, hpl0⟩ : ∃ c0 t0, pl = c0 :: t0 ∧ c0 = '"' := by
        cases tl with
        | nil =>
          have h1 : encodePair kv = some pl := hpl
          obtain ⟨t, ht⟩ := encodePair_head h1
          exact ⟨_, _, ht, rfl⟩
        | cons kv2 tl2 =>
          rw [show encodePairs (kv :: kv2 :: tl2) = do
              let a ← encodePair kv
              let b ← encodePairs (kv2 :: tl2)
              some (a ++ ',' :: b) from rfl] at hpl
          cases ha : encodePair kv with
          | none => rw [ha] at hpl; simp at hpl
          | some a =>
            rw [ha] at hpl
            cases hb : encodePairs (kv2 :: tl2) with
            | none => rw [hb] at hpl; simp at hpl
            | some b =>
              rw [hb] at hpl
              simp only [Option.bind_eq_bind, Option.some_bind, Option.some.injEq] at hpl
              cases hpl
              obtain ⟨t, hat⟩ := encodePair_head ha
              subst hat
              exact ⟨'"', t ++ ',' :: b, by simp, rfl⟩
      subst hpl0 hc0
      have hshape : (lbrace :: (('"' :: t0) ++ [rbrace])) ++ rest
          = lbrace :: ('"' :: (t0 ++ rbrace :: rest)) := by simp
      rw [hshape]
      have hlen : (kv :: tl).length ≤ ('"' :: (t0 ++ rbrace :: rest)).length := by
        have := encodePairs_length (show kv :: tl ≠ [] by simp) hpl
        simp at this ⊢
        omega
      have hpp := parsePairs_encodePairs (show kv :: tl ≠ [] by simp) hpl (rbrace :: rest)
        (headIsNot_comma_rbrace rest) (('"' :: (t0 ++ rbrace :: rest)).length) hlen
      rw [show ('"' :: t0) ++ rbrace :: rest = ('"' :: (t0 ++ rbrace :: rest)) from by simp] at hpp
      rw [show parseMap (lbrace :: ('"' :: (t0 ++ rbrace :: rest)))
          = (do
              let p ← parsePairs (('"' :: (t0 ++ rbrace :: rest)).length)
                ('"' :: (t0 ++ rbrace :: rest))
              let s2 ← expectChar rbrace p.2
              some (p.1, s2)) from by
        simp only [parseMap]
        rw [if_true, if_neg (by decide : ¬('"' = rbrace))]]
      rw [hpp]
      simp [expectChar_pre]

/-! ## Action round trip -/

theorem headNotDig_comma (x : List Char) : headNotDig (',' :: x) = true := rfl

theorem headNotDig_rbrace (x : List Char) : headNotDig (rbrace :: x) = true := rfl

theorem parseEnd_rr : parseEnd [rbrace, rbrace] = some () := by
  simp [parseEnd, expectChar_pre]

theorem parseAction_jwrap (tag : String) (payload : List Char) :
    parseAction (jwrap tag payload) =
      (if str tag = str "metaData" then parseMetaData (payload ++ [rbrace, rbrace])
       else if str tag = str "protocol" then parseProtocol (payload ++ [rbrace, rbrace])
       else if str tag = str "add" then parseAdd (payload ++ [rbrace, rbrace])
       else if str tag = str "remove" then parseRemove (payload ++ [rbrace, rbrace])
       else if str tag = str "cdc" then parseCdc (payload ++ [rbrace, rbrace])
       else if str tag = str "txn" then parseTxn (payload ++ [rbrace, rbrace])
       else if str tag = str "commitInfo" then parseCommitInfo (payload ++ [rbrace, rbrace])
       else if str tag = str "domainMetadata" then parseDomainMetadata (payload ++ [rbrace, rbrace])
       else none) := by
  rw [show jwrap tag payload
      = lbrace :: (encodeString (str tag) ++ (':' :: (lbrace :: (payload ++ [rbrace, rbrace]))))
    from by simp [jwrap]]
  simp only [parseAction, if_true, Option.bind_eq_bind, Option.some_bind,
    parseString_encodeString, expectChar_pre]

theorem parseMetaData_payload (id ss : List Char) :
    parseMetaData ((jfield "id" (encodeString id)
      ++ ',' :: jfield "schemaString" (encodeString ss)) ++ [rbrace, rbrace])
    = some (Action.metaData id ss) := by
  rw [show (jfield "id" (encodeString id)
        ++ ',' :: jfield "schemaString" (encodeString ss)) ++ [rbrace, rbrace]
      = jfield "id" (encodeString id)
        ++ (',' :: (jfield "schemaString" (encodeString ss) ++ [rbrace, rbrace])) from by simp]
  simp only [parseMetaData, Option.bind_eq_bind, Option.some_bind, parseKey_jfield,
    parseString_encodeString, expectChar_pre, parseEnd_rr]

theorem parseProtocol_payload (r w : Nat) :
    parseProtocol ((jfield "minReaderVersion" (encodeNat r)
      ++ ',' :: jfield "minWriterVersion" (encodeNat w)) ++ [rbrace, rbrace])
    = some (Action.protocol r w) := by
  rw [show (jfield "minReaderVersion" (encodeNat r)
        ++ ',' :: jfield "minWriterVersion" (encodeNat w)) ++ [rbrace, rbrace]
      = jfield "minReaderVersion" (encodeNat r)
        ++ (',' :: (jfield "minWriterVersion" (encodeNat w) ++ [rbrace, rbrace])) from by simp]
  simp only [parseProtocol, Option.bind_eq_bind, Option.some_bind, parseKey_jfield,
    parseNat_encodeNat _ _ (headNotDig_comma _), parseNat_encodeNat _ _ (headNotDig_rbrace _),
    expectChar_pre, parseEnd_rr]

theorem parseAdd_payload (p : List Char) (dc : Bool) :
    parseAdd ((jfield "path" (encodeString p)
      ++ ',' :: jfield "dataChange" (encodeBool dc)) ++ [rbrace, rbrace])
    = some (Action.add p dc) := by
  rw [show (jfield "path" (encodeString p)
        ++ ',' :: jfield "dataChange" (encodeBool dc)) ++ [rbrace, rbrace]
      = jfield "path" (encodeString p)
        ++ (',' :: (jfield "dataChange" (encodeBool dc) ++ [rbrace, rbrace])) from by simp]
  simp only [parseAdd, Option.bind_eq_bind, Option.some_bind, parseKey_jfield,
    parseString_encodeString, parseBool_encodeBool, expectChar_pre, parseEnd_rr]

theorem parseRemove_payload (p : List Char) (dc : Bool) :
    parseRemove ((jfield "path" (encodeString p)
      ++ ',' :: jfield "dataChange" (encodeBool dc)) ++ [rbrace, rbrace])
    = some (Action.remove p dc) := by
  rw [show (jfield "path" (encodeString p)
        ++ ',' :: jfield "dataChange" (encodeBool dc)) ++ [rbrace, rbrace]
      = jfield "path" (encodeString p)
        ++ (',' :: (jfield "dataChange" (encodeBool dc) ++ [rbrace, rbrace])) from by simp]
  simp only [parseRemove, Option.bind_eq_bind, Option.some_bind, parseKey_jfield,
    parseString_encodeString, parseBool_encodeBool, expectChar_pre, parseEnd_rr]

theorem parseCdc_payload (p : List Char) :
    parseCdc (jfield "path" (encodeString p) ++ [rbrace, rbrace]) = some (Action.cdc p) := by
  simp only [parseCdc, Option.bind_eq_bind, Option.some_bind, parseKey_jfield,
    parseString_encodeString, expectChar_pre, parseEnd_rr]

theorem parseTxn_payload (t : TransactionM) :
    parseTxn ((jfield "appId" (encodeString t.appId) ++ ',' :: jfield "version" (encodeInt t.version)
      ++ ',' :: jfield "lastUpdated" (encodeOptInt t.lastUpdated)) ++ [rbrace, rbrace])
    = some (Action.txn t) := by
  rw [show (jfield "appId" (encodeString t.appId) ++ ',' :: jfield "version" (encodeInt t.version)
        ++ ',' :: jfield "lastUpdated" (encodeOptInt t.lastUpdated)) ++ [rbrace, rbrace]
      = jfield "appId" (encodeString t.appId)
        ++ (',' :: (jfield "version" (encodeInt t.version)
          ++ (',' :: (jfield "lastUpdated" (encodeOptInt t.lastUpdated)
            ++ [rbrace, rbrace])))) from by simp]
  simp only [parseTxn, Option.bind_eq_bind, Option.some_bind, parseKey_jfield,
    parseString_encodeString, parseInt_encodeInt _ _ (headNotDig_comma _),
    parseOptInt_encodeOptInt _ _ (headNotDig_rbrace _), expectChar_pre, parseEnd_rr]

theorem parseCommitInfo_payload (ci : CommitInfoM) {m : List Char}
    (hm : encodeMap ci.info = some m) :
    parseCommitInfo ((jfield "timestamp" (encodeOptInt ci.timestamp)
      ++ ',' :: jfield "operation" (encodeString ci.operation)
      ++ ',' :: jfield "info" m) ++ [rbrace, rbrace])
    = some (Action.commitInfo ci) := by
  rw [show (jfield "timestamp" (encodeOptInt ci.timestamp)
        ++ ',' :: jfield "operation" (encodeString ci.operation)
        ++ ',' :: jfield "info" m) ++ [rbrace, rbrace]
      = jfield "timestamp" (encodeOptInt ci.timestamp)
        ++ (',' :: (jfield "operation" (encodeString ci.operation)
          ++ (',' :: (jfield "info" m ++ [rbrace, rbrace])))) from by simp]
  simp only [parseCommitInfo, Option.bind_eq_bind, Option.some_bind, parseKey_jfield,
    parseString_encodeString, parseOptInt_encodeOptInt _ _ (headNotDig_comma _),
    parseMap_encodeMap hm, expectChar_pre, parseEnd_rr]

theorem parseDomainMetadata_payload (d cfg : List Char) :
    parseDomainMetadata ((jfield "domain" (encodeString d)
      ++ ',' :: jfield "configuration" (encodeString cfg)) ++ [rbrace, rbrace])
    = some (Action.domainMetadata d cfg) := by
  rw [show (jfield "domain" (encodeString d)
        ++ ',' :: jfield "configuration" (encodeString cfg)) ++ [rbrace, rbrace]
      = jfield "domain" (encodeString d)
        ++ (',' :: (jfield "configuration" (encodeString cfg) ++ [rbrace, rbrace])) from by simp]
  simp only [parseDomainMetadata, Option.bind_eq_bind, Option.some_bind, parseKey_jfield,
    parseString_encodeString, expectChar_pre, parseEnd_rr]

theorem parseAction_serializeAction {a : Action} {l : List Char}
    (h : serializeAction a = some l) : parseAction l = some a := by
  cases a with
  | metaData id ss =>
    simp only [serializeAction, Option.some.injEq] at h
    subst h
    rw [parseAction_jwrap, if_pos rfl]
    exact parseMetaData_payload id ss
  | protocol r w =>
    simp only [serializeAction, Option.some.injEq] at h
    subst h
    rw [parseAction_jwrap, if_neg (by decide), if_pos rfl]
    exact parseProtocol_payload r w
  | add p dc =>
    simp only [serializeAction, Option.some.injEq] at h
    subst h
    rw [parseAction_jwrap, if_neg (by decide), if_neg (by decide), if_pos rfl]
    exact parseAdd_payload p dc
  | remove p dc =>
    simp only [serializeAction, Option.some.injEq] at h
    subst h
    rw [parseAction_jwrap, if_neg (by decide), if_neg (by decide), if_neg (by decide),
      if_pos rfl]
    exact parseRemove_payload p dc
  | cdc p =>
    simp only [serializeAction, Option.some.injEq] at h
    subst h
    rw [parseAction_jwrap, if_neg (by decide), if_neg (by decide), if_neg (by decide),
      if_neg (by decide), if_pos rfl]
    exact parseCdc_payload p
  | txn t =>
    simp only [serializeAction, Option.some.injEq] at h
    subst h
    rw [parseAction_jwrap, if_neg (by decide), if_neg (by decide), if_neg (by decide),
      if_neg (by decide), if_neg (by decide), if_pos rfl]
    exact parseTxn_payload t
  | commitInfo ci =>
    cases hm : encodeMap ci.info with
    | none => rw [serializeAction, hm] at h; simp at h
    | some m =>
      rw [serializeAction, hm] at h
      simp only [Option.map_some', Option.some.injEq] at h
      subst h
      rw [parseAction_jwrap, if_neg (by decide), if_neg (by decide), if_neg (by decide),
        if_neg (by decide), if_neg (by decide), if_neg (by decide), if_pos rfl]
      exact parseCommitInfo_payload ci hm
  | domainMetadata d cfg =>
    simp only [serializeAction, Option.some.injEq] at h
    subst h
    rw [parseAction_jwrap, if_neg (by decide), if_neg (by decide), if_neg (by decide),
      if_neg (by decide), if_neg (by decide), if_neg (by decide), if_neg (by decide),
      if_pos rfl]
    exact parseDomainMetadata_payload d cfg

/-! ## Serialized lines are single lines -/

theorem newline_not_mem_encodeNat {n : Nat} : '\n' ∉ encodeNat n := by
  intro h
  exact absurd rfl (isDig_spec (mem_encodeNat h)).1

theorem newline_not_mem_encodeInt {i : Int} : '\n' ∉ encodeInt i := by
  unfold encodeInt
  split
  · intro h
    rcases List.mem_cons.1 h with h | h
    · exact absurd h (by decide)
    · exact newline_not_mem_encodeNat h
  · exact newline_not_mem_encodeNat

theorem newline_not_mem_encodeOptInt {o : Option Int} : '\n' ∉ encodeOptInt o := by
  cases o with
  | none => decide
  | some i => exact newline_not_mem_encodeInt

theorem newline_not_mem_encodeBool {b : Bool} : '\n' ∉ encodeBool b := by
  cases b <;> decide

theorem newline_not_mem_append {l1 l2 : List Char} (h1 : '\n' ∉ l1) (h2 : '\n' ∉ l2) :
    '\n' ∉ l1 ++ l2 := by
  intro h
  rcases List.mem_append.1 h with h | h
  · exact h1 h
  · exact h2 h

theorem newline_not_mem_cons {c : Char} {l : List Char} (hc : ¬('\n' = c)) (h : '\n' ∉ l) :
    '\n' ∉ c :: l := by
  intro hm
  rcases List.mem_cons.1 hm with hm | hm
  · exact hc hm
  · exact h hm

theorem newline_not_mem_jfield {name : String} {v : List Char} (hv : '\n' ∉ v) :
    '\n' ∉ jfield name v :=
  newline_not_mem_append (newline_not_mem_encodeString _) (newline_not_mem_cons (by decide) hv)

theorem newline_not_mem_jwrap {tag : String} {payload : List Char}
    (hp : '\n' ∉ payload) : '\n' ∉ jwrap tag payload :=
  newline_not_mem_cons (by decide)
    (newline_not_mem_append (newline_not_mem_encodeString _)
      (newline_not_mem_cons (by decide)
        (newline_not_mem_cons (by decide)
          (newline_not_mem_append hp (by decide)))))

theorem newline_not_mem_encodePair {kv : List Char × JVal} {a : List Char}
    (h : encodePair kv = some a) : '\n' ∉ a := by
  obtain ⟨k, v⟩ := kv
  cases v with
  | jnan => simp [encodePair, encodeJVal] at h
  | jstr sv =>
    simp only [encodePair, encodeJVal, Option.map_some', Option.some.injEq] at h
    subst h
    exact newline_not_mem_append (newline_not_mem_encodeString _)
      (newline_not_mem_cons (by decide) (newline_not_mem_encodeString _))

theorem newline_not_mem_encodePairs {ps : AList} {a : List Char}
    (h : encodePairs ps = some a) : '\n' ∉ a := by
  induction ps generalizing a with
  | nil =>
    have ha : a = [] := by simpa [encodePairs] using h.symm
    subst ha
    simp
  | cons kv tl ih =>
    cases tl with
    | nil => exact newline_not_mem_encodePair (h : encodePair kv = some a)
    | cons kv2 tl2 =>
      rw [show encodePairs (kv :: kv2 :: tl2) = do
          let x ← encodePair kv
          let y ← encodePairs (kv2 :: tl2)
          some (x ++ ',' :: y) from rfl] at h
      cases hx : encodePair kv with
      | none => rw [hx] at h; simp at h
      | some x =>
        rw [hx] at h
        cases hy : encodePairs (kv2 :: tl2) with
        | none => rw [hy] at h; simp at h
        | some y =>
          rw [hy] at h
          simp only [Option.bind_eq_bind, Option.some_bind, Option.some.injEq] at h
          subst h
          exact newline_not_mem_append (newline_not_mem_encodePair hx)
            (newline_not_mem_cons (by decide) (ih hy))

theorem newline_not_mem_encodeMap {ps : AList} {m : List Char}
    (h : encodeMap ps = some m) : '\n' ∉ m := by
  cases hp : encodePairs ps with
  | none => rw [encodeMap, hp] at h; simp at h
  | some a =>
    rw [encodeMap, hp] at h
    simp only [Option.map_some', Option.some.injEq] at h
    subst h
    exact newline_not_mem_cons (by decide)
      (newline_not_mem_append (newline_not_mem_encodePairs hp) (by decide))

theorem serializeAction_no_newline {a : Action} {l : List Char}
    (h : serializeAction a = some l) : '\n' ∉ l := by
  cases a with
  | metaData id ss =>
    simp only [serializeAction, Option.some.injEq] at h
    subst h
    exact newline_not_mem_jwrap
      (newline_not_mem_append (newline_not_mem_jfield (newline_not_mem_encodeString _))
        (newline_not_mem_cons (by decide)
          (newline_not_mem_jfield (newline_not_mem_encodeString _))))
  | protocol r w =>
    simp only [serializeAction, Option.some.injEq] at h
    subst h
    exact newline_not_mem_jwrap
      (newline_not_mem_append (newline_not_mem_jfield newline_not_mem_encodeNat)
        (newline_not_mem_cons (by decide)
          (newline_not_mem_jfield newline_not_mem_encodeNat)))
  | add p dc =>
    simp only [serializeAction, Option.some.injEq] at h
    subst h
    exact newline_not_mem_jwrap
      (newline_not_mem_append (newline_not_mem_jfield (newline_not_mem_encodeString _))
        (newline_not_mem_cons (by decide)
          (newline_not_mem_jfield newline_not_mem_encodeBool)))
  | remove p dc =>
    simp only [serializeAction, Option.some.injEq] at h
    subst h
    exact newline_not_mem_jwrap
      (newline_not_mem_append (newline_not_mem_jfield (newline_not_mem_encodeString _))
        (newline_not_mem_cons (by decide)
          (newline_not_mem_jfield newline_not_mem_encodeBool)))
  | cdc p =>
    simp only [serializeAction, Option.some.injEq] at h
    subst h
    exact newline_not_mem_jwrap (newline_not_mem_jfield (newline_not_mem_encodeString _))
  | txn t =>
    simp only [serializeAction, Option.some.injEq] at h
    subst h
    exact newline_not_mem_jwrap
      (newline_not_mem_append
        (newline_not_mem_append (newline_not_mem_jfield (newline_not_mem_encodeString _))
          (newline_not_mem_cons (by decide)
            (newline_not_mem_jfield newline_not_mem_encodeInt)))
        (newline_not_mem_cons (by decide)
          (newline_not_mem_jfield newline_not_mem_encodeOptInt)))
  | commitInfo ci =>
    cases hm : encodeMap ci.info with
    | none => rw [serializeAction, hm] at h; simp at h
    | some m =>
      rw [serializeAction, hm] at h
      simp only [Option.map_some', Option.some.injEq] at h
      subst h
      exact newline_not_mem_jwrap
        (newline_not_mem_append
          (newline_not_mem_append (newline_not_mem_jfield newline_not_mem_encodeOptInt)
            (newline_not_mem_cons (by decide)
              (newline_not_mem_jfield (newline_not_mem_encodeString _))))
          (newline_not_mem_cons (by decide)
            (newline_not_mem_jfield (newline_not_mem_encodeMap hm))))
  | domainMetadata d cfg =>
    simp only [serializeAction, Option.some.injEq] at h
    subst h
    exact newline_not_mem_jwrap
      (newline_not_mem_append (newline_not_mem_jfield (newline_not_mem_encodeString _))
        (newline_not_mem_cons (by decide)
          (newline_not_mem_jfield (newline_not_mem_encodeString _))))

theorem serializeAction_head {a : Action} {l : List Char}
    (h : serializeAction a = some l) : ∃ t, l = lbrace :: t := by
  cases a with
  | commitInfo ci =>
    cases hm : encodeMap ci.info with
    | none => rw [serializeAction, hm] at h; simp at h
    | some m =>
      rw [serializeAction, hm] at h
      simp only [Option.map_some', Option.some.injEq] at h
      exact ⟨_, h.symm⟩
  | metaData id ss =>
    simp only [serializeAction, Option.some.injEq] at h
    exact ⟨_, h.symm⟩
  | protocol r w =>
    simp only [serializeAction, Option.some.injEq] at h
    exact ⟨_, h.symm⟩
  | add p dc =>
    simp only [serializeAction, Option.some.injEq] at h
    exact ⟨_, h.symm⟩
  | remove p dc =>
    simp only [serializeAction, Option.some.injEq] at h
    exact ⟨_, h.symm⟩
  | cdc p =>
    simp only [serializeAction, Option.some.injEq] at h
    exact ⟨_, h.symm⟩
  | txn t =>
    simp only [serializeAction, Option.some.injEq] at h
    exact ⟨_, h.symm⟩
  | domainMetadata d cfg =>
    simp only [serializeAction, Option.some.injEq] at h
    exact ⟨_, h.symm⟩


/-! ## Commit payload round trip (claim C5) -/

theorem mapM_serialize_inv {as : List Action} {ls : List (List Char)}
    (h : as.mapM serializeAction = some ls) :
    ls.mapM parseAction = some as ∧ ∀ l ∈ ls, '\n' ∉ l := by
  induction as generalizing ls with
  | nil =>
    rw [List.mapM_nil] at h
    have hls : ls = [] := by simpa using h.symm
    subst hls
    exact ⟨rfl, by simp⟩
  | cons a as0 ih =>
    rw [List.mapM_cons] at h
    cases hsa : serializeAction a with
    | none => rw [hsa] at h; simp at h
    | some l0 =>
      rw [hsa] at h
      cases hmm : as0.mapM serializeAction with
      | none => rw [hmm] at h; simp at h
      | some ls0 =>
        rw [hmm] at h
        have hls : ls = l0 :: ls0 := by simpa using h.symm
        subst hls
        obtain ⟨hp, hn⟩ := ih hmm
        refine ⟨?_, ?_⟩
        · rw [List.mapM_cons, parseAction_serializeAction hsa, hp]
          rfl
        · intro l hl
          rcases List.mem_cons.1 hl with hl | hl
          · subst hl
            exact serializeAction_no_newline hsa
          · exact hn l hl

theorem mapM_serialize_mem {as : List Action} {ls : List (List Char)}
    (h : as.mapM serializeAction = some ls) :
    ∀ l ∈ ls, ∃ a, serializeAction a = some l := by
  induction as generalizing ls with
  | nil =>
    rw [List.mapM_nil] at h
    have hls : ls = [] := by simpa using h.symm
    subst hls
    simp
  | cons a as0 ih =>
    rw [List.mapM_cons] at h
    cases hsa : serializeAction a with
    | none => rw [hsa] at h; simp at h
    | some l0 =>
      rw [hsa] at h
      cases hmm : as0.mapM serializeAction with
      | none => rw [hmm] at h; simp at h
      | some ls0 =>
        rw [hmm] at h
        have hls : ls = l0 :: ls0 := by simpa using h.symm
        subst hls
        intro l hl
        rcases List.mem_cons.1 hl with hl | hl
        · exact ⟨a, hl ▸ hsa⟩
        · exact ih hmm l hl

theorem mapM_serialize_none {as : List Action}
    (h : ∃ a ∈ as, serializeAction a = none) : as.mapM serializeAction = none := by
  induction as with
  | nil => simp at h
  | cons a as0 ih =>
    rw [List.mapM_cons]
    obtain ⟨b, hb, hbn⟩ := h
    rcases List.mem_cons.1 hb with hb | hb
    · subst hb
      rw [hbn]
      rfl
    · cases hsa : serializeAction a with
      | none => rfl
      | some l0 =>
        rw [ih ⟨b, hb, hbn⟩]
        rfl

theorem intercalate_head_ne_nil {l0 : List Char} {t : List Char} (hl0 : l0 = lbrace :: t)
    (ls0 : List (List Char)) :
    (List.intercalate ['\n'] (l0 :: ls0)).isEmpty = false := by
  subst hl0
  cases ls0 <;> simp [List.intercalate, List.intersperse]

theorem parseCommitBytes_intercalate {as : List Action} {ls : List (List Char)}
    (h : as.mapM serializeAction = some ls) :
    parseCommitBytes (List.intercalate ['\n'] ls) = some as := by
  obtain ⟨hparse, hnl⟩ := mapM_serialize_inv h
  cases ls with
  | nil =>
    rw [List.mapM_nil] at hparse
    have has : as = [] := by simpa using hparse.symm
    subst has
    simp [parseCommitBytes, List.intercalate]
    rfl
  | cons l0 ls0 =>
    obtain ⟨a0, ha0⟩ := mapM_serialize_mem h l0 (by simp)
    obtain ⟨t, ht⟩ := serializeAction_head ha0
    rw [parseCommitBytes]
    rw [if_neg (by simp [intercalate_head_ne_nil ht ls0])]
    rw [List.splitOn_intercalate (l0 :: ls0) '\n' hnl (by simp)]
    exact hparse

/-- Claim C5: when every action of a `CommitData` serializes, `get_bytes`
returns the single-line JSON objects joined by a newline with no trailing
newline (none of the lines contains a newline), and parsing those bytes line
by line returns exactly the action sequence; when some action fails to
serialize, `get_bytes` returns the `SerializeLogJson` error. -/
theorem get_bytes_round_trip (c : CommitData) :
    (∀ ls, c.actions.mapM serializeAction = some ls →
        c.get_bytes = Except.ok (List.intercalate ['\n'] ls)
          ∧ (∀ l ∈ ls, '\n' ∉ l)
          ∧ parseCommitBytes (List.intercalate ['\n'] ls) = some c.actions)
      ∧ ((∃ a ∈ c.actions, serializeAction a = none) →
        c.get_bytes = Except.error TransactionError.serializeLogJson) := by
  constructor
  · intro ls h
    refine ⟨?_, (mapM_serialize_inv h).2, parseCommitBytes_intercalate h⟩
    rw [CommitData.get_bytes, h]
  · intro h
    rw [CommitData.get_bytes, mapM_serialize_none h]

/-- Witness for C5 at a concrete commit: a one-action commit round-trips, and
a commit whose info map holds a non-serializable value fails with
`SerializeLogJson`. -/
theorem get_bytes_round_trip_witness :
    parseCommitBytes (List.intercalate ['\n']
        [jwrap "add" (jfield "path" (encodeString (str "a"))
          ++ ',' :: jfield "dataChange" (encodeBool true))])
      = some [Action.add (str "a") true]
    ∧ (CommitData.mk [Action.commitInfo ⟨none, str "w", [(str "k", JVal.jnan)]⟩]
        ⟨str "w", []⟩ [] []).get_bytes = Except.error TransactionError.serializeLogJson := by
  constructor
  · exact ((get_bytes_round_trip
      (CommitData.mk [Action.add (str "a") true] ⟨str "w", []⟩ [] [])).1 _ rfl).2.2
  · exact (get_bytes_round_trip _).2
      ⟨Action.commitInfo ⟨none, str "w", [(str "k", JVal.jnan)]⟩, by simp, rfl⟩


/-! ## CommitData construction (claim C4) -/

theorem countP_txn_map (txns : List TransactionM) :
    (txns.map Action.txn).countP isTxnAction = txns.length := by
  rw [List.countP_map]
  exact List.countP_eq_length.2 (fun a _ => rfl)

theorem countP_ci_map (txns : List TransactionM) :
    (txns.map Action.txn).countP isCommitInfoAction = 0 := by
  rw [List.countP_map]
  exact List.countP_eq_zero.2 (fun a _ => by simp [isCommitInfoAction])

/-- Claim C4 (amended): for inputs whose action list carries at most one
`CommitInfo` and no `Txn` action, the constructed `CommitData` holds exactly
one `CommitInfo` action and exactly one `Txn` action per application
transaction; when the input held no `CommitInfo`, the single `CommitInfo` is
the synthesized one, stamped with the clock value and carrying the client
version merged into the application metadata. -/
theorem commit_data_new_actions_spec (now : Int) (actions : List Action)
    (op : DeltaOperation) (md : AList) (txns : List TransactionM)
    (hci : actions.countP isCommitInfoAction ≤ 1)
    (htxn : actions.countP isTxnAction = 0) :
    ((CommitData.new now actions op md txns).actions.countP isCommitInfoAction = 1)
    ∧ ((CommitData.new now actions op md txns).actions.countP isTxnAction = txns.length)
    ∧ (actions.countP isCommitInfoAction = 0 →
        (CommitData.new now actions op md txns).actions
          = actions
            ++ Action.commitInfo
                { timestamp := some now, operation := op.name,
                  info := extendKV (insertKV md (str "clientVersion")
                    (JVal.jstr (str "delta-rs." ++ crate_version))) op.commitInfoFields }
              :: txns.map Action.txn) := by
  by_cases hany : actions.any isCommitInfoAction = true
  · have hpos : 0 < actions.countP isCommitInfoAction := by
      rw [List.countP_pos_iff]
      simpa using hany
    have hone : actions.countP isCommitInfoAction = 1 := by omega
    have hres : (CommitData.new now actions op md txns).actions
        = actions ++ txns.map Action.txn := by
      simp only [CommitData.new, hany, if_true]
    refine ⟨?_, ?_, ?_⟩
    · rw [hres, List.countP_append, countP_ci_map, hone]
    · rw [hres, List.countP_append, countP_txn_map, htxn, Nat.zero_add]
    · intro hzero
      omega
  · have hzero : actions.countP isCommitInfoAction = 0 := by
      rw [List.countP_eq_zero]
      intro a ha hpa
      exact hany (List.any_eq_true.2 ⟨a, ha, hpa⟩)
    have hres : (CommitData.new now actions op md txns).actions
        = (actions
            ++ [Action.commitInfo
                { timestamp := some now, operation := op.name,
                  info := extendKV (insertKV md (str "clientVersion")
                    (JVal.jstr (str "delta-rs." ++ crate_version))) op.commitInfoFields }])
          ++ txns.map Action.txn := by
      simp only [CommitData.new, hany, if_false, Bool.false_eq_true,
        DeltaOperation.get_commit_info]
    refine ⟨?_, ?_, ?_⟩
    · rw [hres, List.countP_append, List.countP_append, countP_ci_map, hzero]
      simp [List.countP_cons, isCommitInfoAction]
    · rw [hres, List.countP_append, List.countP_append, countP_txn_map, htxn]
      simp [List.countP_cons, isTxnAction]
    · intro _
      rw [hres]
      simp

/-- Counterexample for C4 as stated: with two `CommitInfo` actions in the
input the constructed actions hold two `CommitInfo` actions, and with a
`Txn` action in the input and no application transaction the constructed
actions hold a `Txn` action anyway. -/
theorem commit_data_new_counterexample :
    ¬((CommitData.new 0 [Action.commitInfo ⟨none, [], []⟩, Action.commitInfo ⟨none, [], []⟩]
        ⟨[], []⟩ [] []).actions.countP isCommitInfoAction = 1)
    ∧ ¬((CommitData.new 0 [Action.txn ⟨[], 0, none⟩] ⟨[], []⟩ [] []).actions.countP isTxnAction
        = ([] : List TransactionM).length) := by
  constructor
  · decide
  · decide

/-- Witness for the amended C4 at a concrete input. -/
theorem commit_data_new_actions_spec_witness :
    (CommitData.new 7 [Action.add (str "f") true] ⟨str "w", []⟩ []
      [⟨str "app", 2, none⟩]).actions.countP isCommitInfoAction = 1 :=
  (commit_data_new_actions_spec 7 [Action.add (str "f") true] ⟨str "w", []⟩ []
    [⟨str "app", 2, none⟩] (by decide) (by decide)).1


/-! ## Retry-loop lemmas (claims C1, C2, C3, C7) -/

theorem conflictLoop_events (env : FinalizeEnv) (attempt : Nat) (latest : Int) :
    ∀ steps, ∀ ev ∈ (conflictLoop env attempt latest steps).1,
      ∃ w, ev = Event.conflictCheck attempt w := by
  intro steps
  induction steps with
  | zero => simp [conflictLoop]
  | succ st ih =>
    intro ev hev
    rw [conflictLoop] at hev
    cases hc : env.checkConflict attempt (latest - ((st : Int) + 1) + 1) with
    | error e =>
      rw [hc] at hev
      simp at hev
      exact ⟨_, hev⟩
    | ok _ =>
      rw [hc] at hev
      simp only [List.mem_cons] at hev
      rcases hev with hev | hev
      · exact ⟨_, hev⟩
      · exact ih ev hev

theorem resolveConflicts_events (env : FinalizeEnv) (mr attempt : Nat)
    (snapVer latest : Int) :
    ∀ ev ∈ (resolveConflicts env mr attempt snapVer latest).1,
      (∃ w, ev = Event.conflictCheck attempt w) ∨ ev = Event.snapshotUpdate attempt latest := by
  intro ev hev
  rw [resolveConflicts] at hev
  by_cases hgt : latest > snapVer
  · rw [if_pos hgt] at hev
    by_cases hmr : mr = 0
    · rw [if_pos hmr] at hev
      simp at hev
    · rw [if_neg hmr] at hev
      cases hcl : conflictLoop env attempt latest (latest - snapVer).toNat with
      | mk cevs cres =>
        rw [hcl] at hev
        cases cres with
        | error e =>
          exact Or.inl (conflictLoop_events env attempt latest _ ev (by rw [hcl]; exact hev))
        | ok _ =>
          cases hu : env.updateSnapshot attempt latest with
          | error e =>
            rw [hu] at hev
            rcases List.mem_append.1 hev with hev | hev
            · exact Or.inl (conflictLoop_events env attempt latest _ ev (by rw [hcl]; exact hev))
            · simp at hev
              exact Or.inr hev
          | ok _ =>
            rw [hu] at hev
            rcases List.mem_append.1 hev with hev | hev
            · exact Or.inl (conflictLoop_events env attempt latest _ ev (by rw [hcl]; exact hev))
            · simp at hev
              exact Or.inr hev
  · rw [if_neg hgt] at hev
    simp at hev

theorem countVAE_nil : countVAE [] = 0 := rfl

theorem countVAE_append (l1 l2 : List Event) :
    countVAE (l1 ++ l2) = countVAE l1 + countVAE l2 :=
  List.countP_append _ _ _

theorem countVAE_resolveConflicts (env : FinalizeEnv) (mr attempt : Nat)
    (snapVer latest : Int) :
    countVAE (resolveConflicts env mr attempt snapVer latest).1 = 0 := by
  refine List.countP_eq_zero.2 ?_
  intro ev hev
  rcases resolveConflicts_events env mr attempt snapVer latest ev hev with ⟨w, hw⟩ | hw
  · subst hw; simp [isVAEWrite]
  · subst hw; simp [isVAEWrite]

theorem no_write_resolveConflicts {env : FinalizeEnv} {mr attempt : Nat}
    {snapVer latest : Int} {a : Nat} {v : Int} {r : Except TransactionError Unit} :
    Event.writeCommitEntry a v r ∉ (resolveConflicts env mr attempt snapVer latest).1 := by
  intro hev
  rcases resolveConflicts_events env mr attempt snapVer latest _ hev with ⟨w, hw⟩ | hw
  · exact absurd hw (by simp)
  · exact absurd hw (by simp)

theorem no_abort_resolveConflicts {env : FinalizeEnv} {mr attempt : Nat}
    {snapVer latest : Int} {a : Nat} {v : Int} :
    Event.abortCommitEntry a v ∉ (resolveConflicts env mr attempt snapVer latest).1 := by
  intro hev
  rcases resolveConflicts_events env mr attempt snapVer latest _ hev with ⟨w, hw⟩ | hw
  · exact absurd hw (by simp)
  · exact absurd hw (by simp)

theorem attemptStep_glhead (env : FinalizeEnv) (post : Option PostCommitHookProperties)
    (mr : Nat) (snapVer : Int) (attempt : Nat) :
    ∃ glr, Event.getLatestVersion attempt snapVer glr
      ∈ (attemptStep env post mr snapVer attempt).1 := by
  cases hgl : env.getLatest attempt snapVer with
  | error e => exact ⟨Except.error e, by simp [attemptStep, hgl]⟩
  | ok latest =>
    refine ⟨Except.ok latest, ?_⟩
    simp only [attemptStep, hgl]
    cases hrc : resolveConflicts env mr attempt snapVer latest with
    | mk cevs cres =>
      cases cres with
      | error e => simp
      | ok sv2 =>
        cases hw : env.write attempt (latest + 1) with
        | ok _ => simp
        | error e =>
          by_cases hv : isVAE e
          · simp [hv]
          · cases env.abort attempt (latest + 1) <;> simp [hv]


theorem attemptStep_gl_error {env : FinalizeEnv} {post : Option PostCommitHookProperties}
    {mr : Nat} {snapVer : Int} {attempt : Nat} {e : TransactionError}
    (hgl : env.getLatest attempt snapVer = Except.error e) :
    attemptStep env post mr snapVer attempt
      = ([Event.getLatestVersion attempt snapVer (Except.error e)], StepRes.fail e) := by
  simp only [attemptStep, hgl]

theorem attemptStep_rc_error {env : FinalizeEnv} {post : Option PostCommitHookProperties}
    {mr : Nat} {snapVer latest : Int} {attempt : Nat} {cevs : List Event}
    {e : TransactionError}
    (hgl : env.getLatest attempt snapVer = Except.ok latest)
    (hrc : resolveConflicts env mr attempt snapVer latest = (cevs, Except.error e)) :
    attemptStep env post mr snapVer attempt
      = (Event.getLatestVersion attempt snapVer (Except.ok latest) :: cevs, StepRes.fail e) := by
  simp only [attemptStep, hgl, hrc]

theorem attemptStep_write_ok {env : FinalizeEnv} {post : Option PostCommitHookProperties}
    {mr : Nat} {snapVer latest sv2 : Int} {attempt : Nat} {cevs : List Event}
    (hgl : env.getLatest attempt snapVer = Except.ok latest)
    (hrc : resolveConflicts env mr attempt snapVer latest = (cevs, Except.ok sv2))
    (hw : env.write attempt (latest + 1) = Except.ok ()) :
    attemptStep env post mr snapVer attempt
      = (Event.getLatestVersion attempt snapVer (Except.ok latest)
            :: cevs ++ [Event.writeCommitEntry attempt (latest + 1) (Except.ok ())],
          StepRes.success
            { version := latest + 1,
              create_checkpoint :=
                (post.map PostCommitHookProperties.create_checkpoint).getD false,
              cleanup_expired_logs :=
                (post.map PostCommitHookProperties.cleanup_expired_logs).getD none,
              table_data_present := true,
              num_retries := attempt - 1 }) := by
  simp only [attemptStep, hgl, hrc, hw]

theorem attemptStep_write_vae {env : FinalizeEnv} {post : Option PostCommitHookProperties}
    {mr : Nat} {snapVer latest sv2 : Int} {attempt : Nat} {cevs : List Event}
    {e : TransactionError}
    (hgl : env.getLatest attempt snapVer = Except.ok latest)
    (hrc : resolveConflicts env mr attempt snapVer latest = (cevs, Except.ok sv2))
    (hw : env.write attempt (latest + 1) = Except.error e) (hv : isVAE e = true) :
    attemptStep env post mr snapVer attempt
      = (Event.getLatestVersion attempt snapVer (Except.ok latest)
            :: cevs ++ [Event.writeCommitEntry attempt (latest + 1) (Except.error e)],
          StepRes.retry sv2) := by
  simp only [attemptStep, hgl, hrc, hw, hv, if_true]

theorem attemptStep_write_abort_ok {env : FinalizeEnv} {post : Option PostCommitHookProperties}
    {mr : Nat} {snapVer latest sv2 : Int} {attempt : Nat} {cevs : List Event}
    {e : TransactionError}
    (hgl : env.getLatest attempt snapVer = Except.ok latest)
    (hrc : resolveConflicts env mr attempt snapVer latest = (cevs, Except.ok sv2))
    (hw : env.write attempt (latest + 1) = Except.error e) (hv : isVAE e = false)
    (hab : env.abort attempt (latest + 1) = Except.ok ()) :
    attemptStep env post mr snapVer attempt
      = (Event.getLatestVersion attempt snapVer (Except.ok latest)
            :: cevs ++ [Event.writeCommitEntry attempt (latest + 1) (Except.error e),
                  Event.abortCommitEntry attempt (latest + 1)],
          StepRes.fail e) := by
  simp only [attemptStep, hgl, hrc, hw, hv, Bool.false_eq_true, if_false, hab]

theorem attemptStep_write_abort_error {env : FinalizeEnv}
    {post : Option PostCommitHookProperties}
    {mr : Nat} {snapVer latest sv2 : Int} {attempt : Nat} {cevs : List Event}
    {e e2 : TransactionError}
    (hgl : env.getLatest attempt snapVer = Except.ok latest)
    (hrc : resolveConflicts env mr attempt snapVer latest = (cevs, Except.ok sv2))
    (hw : env.write attempt (latest + 1) = Except.error e) (hv : isVAE e = false)
    (hab : env.abort attempt (latest + 1) = Except.error e2) :
    attemptStep env post mr snapVer attempt
      = (Event.getLatestVersion attempt snapVer (Except.ok latest)
            :: cevs ++ [Event.writeCommitEntry attempt (latest + 1) (Except.error e),
                  Event.abortCommitEntry attempt (latest + 1)],
          StepRes.fail e2) := by
  simp only [attemptStep, hgl, hrc, hw, hv, Bool.false_eq_true, if_false, hab]


theorem attemptStep_cases {env : FinalizeEnv} {post : Option PostCommitHookProperties}
    {mr : Nat} {snapVer : Int} {attempt : Nat} {evs : List Event} {r : StepRes}
    (h : attemptStep env post mr snapVer attempt = (evs, r)) :
    (∀ a v e, Event.writeCommitEntry a v (Except.error e) ∈ evs → isVAE e = false →
        Event.abortCommitEntry a v ∈ evs
        ∧ (env.abort a v = Except.ok () → r = StepRes.fail e)
        ∧ (∀ e2, env.abort a v = Except.error e2 → r = StepRes.fail e2))
    ∧ (∀ a v, Event.abortCommitEntry a v ∈ evs →
        ∃ e, Event.writeCommitEntry a v (Except.error e) ∈ evs ∧ isVAE e = false)
    ∧ (∀ a v w, Event.writeCommitEntry a v
          (Except.error (TransactionError.versionAlreadyExists w)) ∈ evs →
        a = attempt ∧ ∃ sv2, r = StepRes.retry sv2)
    ∧ (∀ pc, r = StepRes.success pc → pc.num_retries = attempt - 1 ∧ countVAE evs = 0
        ∧ ∃ v, Event.writeCommitEntry attempt v (Except.ok ()) ∈ evs)
    ∧ (∀ sv2, r = StepRes.retry sv2 → countVAE evs = 1) := by
  cases hgl : env.getLatest attempt snapVer with
  | error e =>
    rw [attemptStep_gl_error hgl] at h
    cases h
    refine ⟨by simp, by simp, by simp, by simp, by simp⟩
  | ok latest =>
    cases hrc : resolveConflicts env mr attempt snapVer latest with
    | mk cevs cres =>
      have hfst : (resolveConflicts env mr attempt snapVer latest).1 = cevs := by rw [hrc]
      have hnw : ∀ a v rr, Event.writeCommitEntry a v rr ∉ cevs := by
        intro a v rr hin
        exact no_write_resolveConflicts (by rw [hfst]; exact hin)
      have hna : ∀ a v, Event.abortCommitEntry a v ∉ cevs := by
        intro a v hin
        exact no_abort_resolveConflicts (by rw [hfst]; exact hin)
      have hc0 : List.countP isVAEWrite cevs = 0 := by
        have := countVAE_resolveConflicts env mr attempt snapVer latest
        rw [countVAE, hfst] at this
        exact this
      cases cres with
      | error e =>
        rw [attemptStep_rc_error hgl hrc] at h
        cases h
        refine ⟨?_, ?_, ?_, by simp, by simp⟩
        · intro a v e1 hmem hnv
          rcases List.mem_cons.1 hmem with hmem | hmem
          · exact absurd hmem (by simp)
          · exact absurd hmem (hnw _ _ _)
        · intro a v hmem
          rcases List.mem_cons.1 hmem with hmem | hmem
          · exact absurd hmem (by simp)
          · exact absurd hmem (hna _ _)
        · intro a v w hmem
          rcases List.mem_cons.1 hmem with hmem | hmem
          · exact absurd hmem (by simp)
          · exact absurd hmem (hnw _ _ _)
      | ok sv2 =>
        cases hw : env.write attempt (latest + 1) with
        | ok u =>
          cases u
          rw [attemptStep_write_ok hgl hrc hw] at h
          cases h
          refine ⟨?_, ?_, ?_, ?_, by simp⟩
          · intro a v e1 hmem hnv
            rcases List.mem_cons.1 hmem with hmem | hmem
            · exact absurd hmem (by simp)
            rcases List.mem_append.1 hmem with hmem | hmem
            · exact absurd hmem (hnw _ _ _)
            · simp at hmem
          · intro a v hmem
            rcases List.mem_cons.1 hmem with hmem | hmem
            · exact absurd hmem (by simp)
            rcases List.mem_append.1 hmem with hmem | hmem
            · exact absurd hmem (hna _ _)
            · simp at hmem
          · intro a v w hmem
            rcases List.mem_cons.1 hmem with hmem | hmem
            · exact absurd hmem (by simp)
            rcases List.mem_append.1 hmem with hmem | hmem
            · exact absurd hmem (hnw _ _ _)
            · simp at hmem
          · intro pc hpc
            cases hpc
            refine ⟨rfl, ?_, ⟨latest + 1, by simp⟩⟩
            simp [countVAE, List.countP_cons, List.countP_append, hc0, isVAEWrite]
        | error e =>
          by_cases hv : isVAE e
          · rw [attemptStep_write_vae hgl hrc hw hv] at h
            cases h
            refine ⟨?_, ?_, ?_, by simp, ?_⟩
            · intro a v e1 hmem hnv
              rcases List.mem_cons.1 hmem with hmem | hmem
              · exact absurd hmem (by simp)
              rcases List.mem_append.1 hmem with hmem | hmem
              · exact absurd hmem (hnw _ _ _)
              · simp at hmem
                rw [hmem.2.2] at hnv
                rw [hv] at hnv
                cases hnv
            · intro a v hmem
              rcases List.mem_cons.1 hmem with hmem | hmem
              · exact absurd hmem (by simp)
              rcases List.mem_append.1 hmem with hmem | hmem
              · exact absurd hmem (hna _ _)
              · simp at hmem
            · intro a v w hmem
              rcases List.mem_cons.1 hmem with hmem | hmem
              · exact absurd hmem (by simp)
              rcases List.mem_append.1 hmem with hmem | hmem
              · exact absurd hmem (hnw _ _ _)
              · simp at hmem
                exact ⟨hmem.1, sv2, rfl⟩
            · intro sv2h hsv
              simp [countVAE, List.countP_cons, List.countP_append, hc0, isVAEWrite, hv]
          · have hvf : isVAE e = false := by simpa using hv
            cases hab : env.abort attempt (latest + 1) with
            | ok u =>
              cases u
              rw [attemptStep_write_abort_ok hgl hrc hw hvf hab] at h
              cases h
              refine ⟨?_, ?_, ?_, by simp, by simp⟩
              · intro a v e1 hmem hnv
                rcases List.mem_cons.1 hmem with hmem | hmem
                · exact absurd hmem (by simp)
                rcases List.mem_append.1 hmem with hmem | hmem
                · exact absurd hmem (hnw _ _ _)
                simp at hmem
                obtain ⟨ha, hvv, he⟩ := hmem
                subst ha
                subst hvv
                subst he
                refine ⟨by simp, fun _ => rfl, fun e2 habe => ?_⟩
                rw [hab] at habe
                cases habe
              · intro a v hmem
                rcases List.mem_cons.1 hmem with hmem | hmem
                · exact absurd hmem (by simp)
                rcases List.mem_append.1 hmem with hmem | hmem
                · exact absurd hmem (hna _ _)
                simp at hmem
                obtain ⟨ha, hvv⟩ := hmem
                subst ha
                subst hvv
                exact ⟨e, by simp, hvf⟩
              · intro a v w hmem
                rcases List.mem_cons.1 hmem with hmem | hmem
                · exact absurd hmem (by simp)
                rcases List.mem_append.1 hmem with hmem | hmem
                · exact absurd hmem (hnw _ _ _)
                simp at hmem
                rw [← hmem.2.2] at hvf
                simp [isVAE] at hvf
            | error e2 =>
              rw [attemptStep_write_abort_error hgl hrc hw hvf hab] at h
              cases h
              refine ⟨?_, ?_, ?_, by simp, by simp⟩
              · intro a v e1 hmem hnv
                rcases List.mem_cons.1 hmem with hmem | hmem
                · exact absurd hmem (by simp)
                rcases List.mem_append.1 hmem with hmem | hmem
                · exact absurd hmem (hnw _ _ _)
                simp at hmem
                obtain ⟨ha, hvv, he⟩ := hmem
                subst ha
                subst hvv
                subst he
                refine ⟨by simp, fun habo => ?_, fun e3 habe => ?_⟩
                · rw [hab] at habo
                  cases habo
                · rw [hab] at habe
                  cases habe
                  rfl
              · intro a v hmem
                rcases List.mem_cons.1 hmem with hmem | hmem
                · exact absurd hmem (by simp)
                rcases List.mem_append.1 hmem with hmem | hmem
                · exact absurd hmem (hna _ _)
                simp at hmem
                obtain ⟨ha, hvv⟩ := hmem
                subst ha
                subst hvv
                exact ⟨e, by simp, hvf⟩
              · intro a v w hmem
                rcases List.mem_cons.1 hmem with hmem | hmem
                · exact absurd hmem (by simp)
                rcases List.mem_append.1 hmem with hmem | hmem
                · exact absurd hmem (hnw _ _ _)
                simp at hmem
                rw [← hmem.2.2] at hvf
                simp [isVAE] at hvf


theorem fl_zero (env : FinalizeEnv) (post : Option PostCommitHookProperties) (mr : Nat)
    (snapVer : Int) (attempt : Nat) :
    finalizeLoop env post mr snapVer attempt 0
      = ([], Except.error (TransactionError.maxCommitAttempts (mr : Int))) := rfl

theorem fl_success {env : FinalizeEnv} {post : Option PostCommitHookProperties} {mr : Nat}
    {snapVer : Int} {attempt : Nat} {sevs : List Event} {pc : PostCommitM}
    (hstep : attemptStep env post mr snapVer attempt = (sevs, StepRes.success pc))
    (fuel : Nat) :
    finalizeLoop env post mr snapVer attempt (fuel + 1) = (sevs, Except.ok pc) := by
  simp only [finalizeLoop, hstep]

theorem fl_fail {env : FinalizeEnv} {post : Option PostCommitHookProperties} {mr : Nat}
    {snapVer : Int} {attempt : Nat} {sevs : List Event} {e : TransactionError}
    (hstep : attemptStep env post mr snapVer attempt = (sevs, StepRes.fail e))
    (fuel : Nat) :
    finalizeLoop env post mr snapVer attempt (fuel + 1) = (sevs, Except.error e) := by
  simp only [finalizeLoop, hstep]

theorem fl_retry {env : FinalizeEnv} {post : Option PostCommitHookProperties} {mr : Nat}
    {snapVer : Int} {attempt : Nat} {sevs revs : List Event} {sv2 : Int}
    {rres : Except TransactionError PostCommitM}
    (hstep : attemptStep env post mr snapVer attempt = (sevs, StepRes.retry sv2))
    {fuel : Nat}
    (hrec : finalizeLoop env post mr sv2 (attempt + 1) fuel = (revs, rres)) :
    finalizeLoop env post mr snapVer attempt (fuel + 1) = (sevs ++ revs, rres) := by
  simp only [finalizeLoop, hstep, hrec]

theorem finalizeLoop_step_sub (env : FinalizeEnv) (post : Option PostCommitHookProperties)
    (mr : Nat) (snapVer : Int) (attempt : Nat) (fuel : Nat) :
    ∀ ev ∈ (attemptStep env post mr snapVer attempt).1,
      ev ∈ (finalizeLoop env post mr snapVer attempt (fuel + 1)).1 := by
  intro ev hev
  cases hstep : attemptStep env post mr snapVer attempt with
  | mk sevs sres =>
    rw [hstep] at hev
    cases sres with
    | success pc => rw [fl_success hstep]; exact hev
    | fail e => rw [fl_fail hstep]; exact hev
    | retry sv2 =>
      cases hrec : finalizeLoop env post mr sv2 (attempt + 1) fuel with
      | mk revs rres =>
        rw [fl_retry hstep hrec]
        exact List.mem_append.2 (Or.inl hev)

theorem finalizeLoop_policy (env : FinalizeEnv) (post : Option PostCommitHookProperties)
    (mr : Nat) :
    ∀ fuel snapVer attempt evs res,
      finalizeLoop env post mr snapVer attempt fuel = (evs, res) →
      (∀ a v e, Event.writeCommitEntry a v (Except.error e) ∈ evs → isVAE e = false →
          Event.abortCommitEntry a v ∈ evs
          ∧ (env.abort a v = Except.ok () → res = Except.error e)
          ∧ (∀ e2, env.abort a v = Except.error e2 → res = Except.error e2))
      ∧ (∀ a v, Event.abortCommitEntry a v ∈ evs →
          ∃ e, Event.writeCommitEntry a v (Except.error e) ∈ evs ∧ isVAE e = false)
      ∧ (∀ a v w, Event.writeCommitEntry a v
            (Except.error (TransactionError.versionAlreadyExists w)) ∈ evs →
          (∃ hint glr, Event.getLatestVersion (a + 1) hint glr ∈ evs)
          ∨ res = Except.error (TransactionError.maxCommitAttempts (mr : Int))) := by
  intro fuel
  induction fuel with
  | zero =>
    intro snapVer attempt evs res h
    rw [fl_zero] at h
    cases h
    exact ⟨by simp, by simp, by simp⟩
  | succ fuel ih =>
    intro snapVer attempt evs res h
    cases hstep : attemptStep env post mr snapVer attempt with
    | mk sevs sres =>
      have AC := attemptStep_cases hstep
      cases sres with
      | success pc =>
        rw [fl_success hstep] at h
        cases h
        refine ⟨?_, ?_, ?_⟩
        · intro a v e hmem hnv
          obtain ⟨hab, himpo, himpe⟩ := AC.1 a v e hmem hnv
          cases habo : env.abort a v with
          | ok u => cases u; cases himpo habo
          | error e2 => cases himpe e2 habo
        · intro a v hmem
          exact AC.2.1 a v hmem
        · intro a v w hmem
          obtain ⟨ha, sv2, hr⟩ := AC.2.2.1 a v w hmem
          cases hr
      | fail e =>
        rw [fl_fail hstep] at h
        cases h
        refine ⟨?_, ?_, ?_⟩
        · intro a v e1 hmem hnv
          obtain ⟨hab, himpo, himpe⟩ := AC.1 a v e1 hmem hnv
          refine ⟨hab, fun habo => ?_, fun e2 habe => ?_⟩
          · have := himpo habo
            cases this
            rfl
          · have := himpe e2 habe
            cases this
            rfl
        · intro a v hmem
          exact AC.2.1 a v hmem
        · intro a v w hmem
          obtain ⟨ha, sv2, hr⟩ := AC.2.2.1 a v w hmem
          cases hr
      | retry sv2 =>
        cases hrec : finalizeLoop env post mr sv2 (attempt + 1) fuel with
        | mk revs rres =>
          rw [fl_retry hstep hrec] at h
          cases h
          have IH := ih sv2 (attempt + 1) _ _ hrec
          refine ⟨?_, ?_, ?_⟩
          · intro a v e hmem hnv
            rcases List.mem_append.1 hmem with hmem | hmem
            · obtain ⟨hab, himpo, himpe⟩ := AC.1 a v e hmem hnv
              cases habo : env.abort a v with
              | ok u => cases u; cases himpo habo
              | error e2 => cases himpe e2 habo
            · obtain ⟨hab, himpo, himpe⟩ := IH.1 a v e hmem hnv
              exact ⟨List.mem_append.2 (Or.inr hab), himpo, himpe⟩
          · intro a v hmem
            rcases List.mem_append.1 hmem with hmem | hmem
            · obtain ⟨e, hw, hnv⟩ := AC.2.1 a v hmem
              exact ⟨e, List.mem_append.2 (Or.inl hw), hnv⟩
            · obtain ⟨e, hw, hnv⟩ := IH.2.1 a v hmem
              exact ⟨e, List.mem_append.2 (Or.inr hw), hnv⟩
          · intro a v w hmem
            rcases List.mem_append.1 hmem with hmem | hmem
            · obtain ⟨ha, _, _⟩ := AC.2.2.1 a v w hmem
              subst ha
              cases fuel with
              | zero =>
                rw [fl_zero] at hrec
                cases hrec
                exact Or.inr rfl
              | succ fuel2 =>
                obtain ⟨glr, hgl⟩ := attemptStep_glhead env post mr sv2 (a + 1)
                have hin := finalizeLoop_step_sub env post mr sv2 (a + 1) fuel2 _ hgl
                rw [hrec] at hin
                exact Or.inl ⟨sv2, glr, List.mem_append.2 (Or.inr hin)⟩
            · rcases IH.2.2 a v w hmem with ⟨hint, glr, hin⟩ | hres
              · exact Or.inl ⟨hint, glr, List.mem_append.2 (Or.inr hin)⟩
              · exact Or.inr hres


theorem finalizeLoop_retries (env : FinalizeEnv) (post : Option PostCommitHookProperties)
    (mr : Nat) :
    ∀ fuel snapVer attempt evs pc, 1 ≤ attempt →
      finalizeLoop env post mr snapVer attempt fuel = (evs, Except.ok pc) →
      pc.num_retries + 1 = attempt + countVAE evs
      ∧ ∃ v, Event.writeCommitEntry (pc.num_retries + 1) v (Except.ok ()) ∈ evs := by
  intro fuel
  induction fuel with
  | zero =>
    intro snapVer attempt evs pc hatt h
    rw [fl_zero] at h
    have h2 := congrArg Prod.snd h
    simp at h2
  | succ fuel ih =>
    intro snapVer attempt evs pc hatt h
    cases hstep : attemptStep env post mr snapVer attempt with
    | mk sevs sres =>
      have AC := attemptStep_cases hstep
      cases sres with
      | success pc2 =>
        rw [fl_success hstep] at h
        cases h
        obtain ⟨hnum, hcnt, v, hmem⟩ := AC.2.2.2.1 pc rfl
        have hn1 : pc.num_retries + 1 = attempt := by omega
        refine ⟨by omega, ⟨v, ?_⟩⟩
        rw [hn1]
        exact hmem
      | fail e =>
        rw [fl_fail hstep] at h
        have h2 := congrArg Prod.snd h
        simp at h2
      | retry sv2 =>
        cases hrec : finalizeLoop env post mr sv2 (attempt + 1) fuel with
        | mk revs rres =>
          rw [fl_retry hstep hrec] at h
          cases h
          have hone := AC.2.2.2.2 sv2 rfl
          obtain ⟨hnum, v, hmem⟩ := ih sv2 (attempt + 1) _ _ (by omega) hrec
          constructor
          · rw [countVAE_append, hone]
            omega
          · exact ⟨v, List.mem_append.2 (Or.inr hmem)⟩


/-- Claim C1 (amended): in the finalize retry loop, an install attempt that
fails with `VersionAlreadyExists` never triggers an abort and the loop
continues (a further attempt queries the latest version with an incremented
attempt counter, unless the retry budget is exhausted, in which case
`MaxCommitAttempts(max_retries)` surfaces); any other install error first
triggers `abort_commit_entry` on the same version and is then propagated to
the caller - unless the abort itself fails, in which case the abort's error
is propagated. `VersionAlreadyExists` is the only error kind the pipeline
recovers from. -/
theorem commit_retry_error_policy (env : FinalizeEnv)
    (post : Option PostCommitHookProperties) (mr : Nat) (snapVer : Int)
    (evs : List Event) (res : Except TransactionError PostCommitM)
    (h : PreparedCommit.into_future env (some snapVer) mr post = (evs, res)) :
    (∀ a v e, Event.writeCommitEntry a v (Except.error e) ∈ evs → isVAE e = false →
        Event.abortCommitEntry a v ∈ evs
        ∧ (env.abort a v = Except.ok () → res = Except.error e)
        ∧ (∀ e2, env.abort a v = Except.error e2 → res = Except.error e2))
    ∧ (∀ a v, Event.abortCommitEntry a v ∈ evs →
        ∃ e, Event.writeCommitEntry a v (Except.error e) ∈ evs ∧ isVAE e = false)
    ∧ (∀ a v w, Event.writeCommitEntry a v
          (Except.error (TransactionError.versionAlreadyExists w)) ∈ evs →
        (∃ hint glr, Event.getLatestVersion (a + 1) hint glr ∈ evs)
        ∨ res = Except.error (TransactionError.maxCommitAttempts (mr : Int))) := by
  simp only [PreparedCommit.into_future] at h
  exact finalizeLoop_policy env post mr (mr + 1) snapVer 1 evs res h

/-- Counterexample to C1 as stated: with an install failing on a non-race
error and the abort itself failing, the pipeline surfaces the abort's error,
not the install error. -/
theorem commit_abort_error_masks_install_error :
    Event.writeCommitEntry 1 1 (Except.error (TransactionError.objectStore 9))
        ∈ (PreparedCommit.into_future
            { getLatest := fun _ hint => Except.ok hint
              checkConflict := fun _ _ => Except.ok ()
              updateSnapshot := fun _ _ => Except.ok ()
              write := fun _ _ => Except.error (TransactionError.objectStore 9)
              abort := fun _ _ => Except.error (TransactionError.logStoreError (str "boom")) }
            (some 0) 15 none).1
    ∧ ¬((PreparedCommit.into_future
            { getLatest := fun _ hint => Except.ok hint
              checkConflict := fun _ _ => Except.ok ()
              updateSnapshot := fun _ _ => Except.ok ()
              write := fun _ _ => Except.error (TransactionError.objectStore 9)
              abort := fun _ _ => Except.error (TransactionError.logStoreError (str "boom")) }
            (some 0) 15 none).2
        = Except.error (TransactionError.objectStore 9))
    ∧ (PreparedCommit.into_future
            { getLatest := fun _ hint => Except.ok hint
              checkConflict := fun _ _ => Except.ok ()
              updateSnapshot := fun _ _ => Except.ok ()
              write := fun _ _ => Except.error (TransactionError.objectStore 9)
              abort := fun _ _ => Except.error (TransactionError.logStoreError (str "boom")) }
            (some 0) 15 none).2
        = Except.error (TransactionError.logStoreError (str "boom")) := by
  refine ⟨by decide, by decide, by decide⟩

/-- Witness for C1 at a concrete oracle whose install fails with a storage
error and whose abort succeeds: the abort is performed and the install error
is propagated. -/
theorem commit_retry_error_policy_witness :
    Event.abortCommitEntry 1 1
        ∈ (PreparedCommit.into_future
            { getLatest := fun _ hint => Except.ok hint
              checkConflict := fun _ _ => Except.ok ()
              updateSnapshot := fun _ _ => Except.ok ()
              write := fun _ _ => Except.error (TransactionError.objectStore 9)
              abort := fun _ _ => Except.ok () }
            (some 0) 15 none).1
    ∧ (PreparedCommit.into_future
            { getLatest := fun _ hint => Except.ok hint
              checkConflict := fun _ _ => Except.ok ()
              updateSnapshot := fun _ _ => Except.ok ()
              write := fun _ _ => Except.error (TransactionError.objectStore 9)
              abort := fun _ _ => Except.ok () }
            (some 0) 15 none).2
        = Except.error (TransactionError.objectStore 9) := by
  have P := commit_retry_error_policy
    { getLatest := fun _ hint => Except.ok hint
      checkConflict := fun _ _ => Except.ok ()
      updateSnapshot := fun _ _ => Except.ok ()
      write := fun _ _ => Except.error (TransactionError.objectStore 9)
      abort := fun _ _ => Except.ok () }
    none 15 0 _ _ rfl
  obtain ⟨hab, himpo, _⟩ := P.1 1 1 (TransactionError.objectStore 9) (by decide) rfl
  exact ⟨hab, himpo rfl⟩

/-- Claim C2: on a successful finalize run with a table reference, the
reported `num_retries` equals the number of install attempts that observed
`VersionAlreadyExists`, and the successful install happened on attempt
`num_retries + 1`. -/
theorem commit_num_retries_counts_vae (env : FinalizeEnv)
    (post : Option PostCommitHookProperties) (mr : Nat) (snapVer : Int)
    (evs : List Event) (pc : PostCommitM)
    (h : PreparedCommit.into_future env (some snapVer) mr post = (evs, Except.ok pc)) :
    pc.num_retries = countVAE evs
    ∧ ∃ v, Event.writeCommitEntry (pc.num_retries + 1) v (Except.ok ()) ∈ evs := by
  simp only [PreparedCommit.into_future] at h
  obtain ⟨h1, h2⟩ := finalizeLoop_retries env post mr (mr + 1) snapVer 1 evs pc le_rfl h
  exact ⟨by omega, h2⟩

/-- Witness for C2 at a concrete oracle that loses the race once: the
reported retry count is the single observed `VersionAlreadyExists`. -/
theorem commit_num_retries_counts_vae_witness :
    ({ version := 1, create_checkpoint := false, cleanup_expired_logs := none,
        table_data_present := true, num_retries := 1 } : PostCommitM).num_retries
      = countVAE (PreparedCommit.into_future
          { getLatest := fun _ hint => Except.ok hint
            checkConflict := fun _ _ => Except.ok ()
            updateSnapshot := fun _ _ => Except.ok ()
            write := fun a v =>
              if a = 1 then Except.error (TransactionError.versionAlreadyExists v)
              else Except.ok ()
            abort := fun _ _ => Except.ok () }
          (some 0) 15 none).1 :=
  (commit_num_retries_counts_vae
    { getLatest := fun _ hint => Except.ok hint
      checkConflict := fun _ _ => Except.ok ()
      updateSnapshot := fun _ _ => Except.ok ()
      write := fun a v =>
        if a = 1 then Except.error (TransactionError.versionAlreadyExists v)
        else Except.ok ()
      abort := fun _ _ => Except.ok () }
    none 15 0 _
    { version := 1, create_checkpoint := false, cleanup_expired_logs := none,
      table_data_present := true, num_retries := 1 } rfl).1

/-- Claim C3: with `max_retries = 0` and a table reference, observing a
latest version ahead of the read snapshot fails with `MaxCommitAttempts(0)`
and the conflict checker is never invoked. -/
theorem commit_max_retries_zero_fails_fast (env : FinalizeEnv)
    (post : Option PostCommitHookProperties) (snapVer latest : Int)
    (evs : List Event) (res : Except TransactionError PostCommitM)
    (hgl : env.getLatest 1 snapVer = Except.ok latest) (hgt : latest > snapVer)
    (h : PreparedCommit.into_future env (some snapVer) 0 post = (evs, res)) :
    res = Except.error (TransactionError.maxCommitAttempts 0)
    ∧ ∀ a w, Event.conflictCheck a w ∉ evs := by
  have hrc : resolveConflicts env 0 1 snapVer latest
      = ([], Except.error (TransactionError.maxCommitAttempts 0)) := by
    rw [resolveConflicts, if_pos hgt, if_pos rfl]
  simp only [PreparedCommit.into_future] at h
  rw [fl_fail (attemptStep_rc_error hgl hrc) 0] at h
  cases h
  exact ⟨rfl, by simp⟩

/-- Witness for C3 at a concrete oracle whose latest version is one ahead of
the snapshot. -/
theorem commit_max_retries_zero_fails_fast_witness :
    (PreparedCommit.into_future
        { getLatest := fun _ hint => Except.ok (hint + 1)
          checkConflict := fun _ _ => Except.ok ()
          updateSnapshot := fun _ _ => Except.ok ()
          write := fun _ _ => Except.ok ()
          abort := fun _ _ => Except.ok () }
        (some 0) 0 none).2
      = Except.error (TransactionError.maxCommitAttempts 0)
    ∧ Event.conflictCheck 1 1
        ∉ (PreparedCommit.into_future
            { getLatest := fun _ hint => Except.ok (hint + 1)
              checkConflict := fun _ _ => Except.ok ()
              updateSnapshot := fun _ _ => Except.ok ()
              write := fun _ _ => Except.ok ()
              abort := fun _ _ => Except.ok () }
            (some 0) 0 none).1 := by
  have P := commit_max_retries_zero_fails_fast
    { getLatest := fun _ hint => Except.ok (hint + 1)
      checkConflict := fun _ _ => Except.ok ()
      updateSnapshot := fun _ _ => Except.ok ()
      write := fun _ _ => Except.ok ()
      abort := fun _ _ => Except.ok () }
    none 0 1 _ _ rfl (by decide) rfl
  exact ⟨P.1, P.2 1 1⟩

/-- Claim C7: on the creation path (no table reference) the pipeline calls
`write_commit_entry` exactly once, at version 0, with no latest-version
query, no retry iteration and no conflict check; on success the resulting
`PostCommit` has version 0, no table data and zero retries, and any error
(including `VersionAlreadyExists`) surfaces as-is. -/
theorem creation_path_single_install (env : FinalizeEnv)
    (post : Option PostCommitHookProperties) (mr : Nat)
    (evs : List Event) (res : Except TransactionError PostCommitM)
    (h : PreparedCommit.into_future env none mr post = (evs, res)) :
    evs = [Event.writeCommitEntry 0 0 (env.write 0 0)]
    ∧ (env.write 0 0 = Except.ok () →
        res = Except.ok
          { version := 0, create_checkpoint := false, cleanup_expired_logs := none,
            table_data_present := false, num_retries := 0 })
    ∧ (∀ e, env.write 0 0 = Except.error e → res = Except.error e) := by
  cases hw : env.write 0 0 with
  | ok u =>
    cases u
    simp only [PreparedCommit.into_future, hw] at h
    cases h
    exact ⟨rfl, fun _ => rfl, fun e he => by cases he⟩
  | error e =>
    simp only [PreparedCommit.into_future, hw] at h
    cases h
    refine ⟨rfl, fun hok => ?_, fun e2 he2 => ?_⟩
    · cases hok
    · cases he2
      rfl

/-- Witness for C7 at a concrete oracle whose single install succeeds. -/
theorem creation_path_single_install_witness :
    (PreparedCommit.into_future
        { getLatest := fun _ hint => Except.ok hint
          checkConflict := fun _ _ => Except.ok ()
          updateSnapshot := fun _ _ => Except.ok ()
          write := fun _ _ => Except.ok ()
          abort := fun _ _ => Except.ok () }
        none 15 none).1 = [Event.writeCommitEntry 0 0 (Except.ok ())]
    ∧ (PreparedCommit.into_future
        { getLatest := fun _ hint => Except.ok hint
          checkConflict := fun _ _ => Except.ok ()
          updateSnapshot := fun _ _ => Except.ok ()
          write := fun _ _ => Except.ok ()
          abort := fun _ _ => Except.ok () }
        none 15 none).2
      = Except.ok
          { version := 0, create_checkpoint := false, cleanup_expired_logs := none,
            table_data_present := false, num_retries := 0 } := by
  have P := creation_path_single_install
    { getLatest := fun _ hint => Except.ok hint
      checkConflict := fun _ _ => Except.ok ()
      updateSnapshot := fun _ _ => Except.ok ()
      write := fun _ _ => Except.ok ()
      abort := fun _ _ => Except.ok () }
    none 15 _ _ rfl
  exact ⟨P.1, P.2.1 rfl⟩


/-! ## Prepare stage (claim C6) -/

/-- Claim C6: when the driver name identifies a conditional-put store the
serialized payload is kept as `LogBytes` with no staging write; otherwise
the bytes are staged at `_delta_log/_commit_<uuid>.json.tmp` and wrapped as
`TmpCommit` carrying that path. -/
theorem prepare_commit_staging_mode (env : PrepareEnv) (tdp : Bool) (data : CommitData)
    (bytes : List Char) (evs : List PrepareEvent)
    (res : Except TransactionError CommitOrBytes)
    (hgate : tdp = true → env.canCommitRes = Except.ok ())
    (hser : data.get_bytes = Except.ok bytes)
    (h : PreCommit.into_prepared_commit_future env tdp data = (evs, res)) :
    ((env.storeName = str "LakeFSLogStore" ∨ env.storeName = str "DefaultLogStore") →
        evs = [] ∧ res = Except.ok (CommitOrBytes.logBytes bytes))
    ∧ (¬(env.storeName = str "LakeFSLogStore" ∨ env.storeName = str "DefaultLogStore") →
        evs = [PrepareEvent.putStaged (tmp_commit_path env.token)]
        ∧ (env.putRes = Except.ok () →
            res = Except.ok (CommitOrBytes.tmpCommit (tmp_commit_path env.token)))
        ∧ (∀ e, env.putRes = Except.error e → res = Except.error e)) := by
  have hcc : (if tdp then env.canCommitRes else Except.ok ()) = Except.ok () := by
    cases tdp
    · rfl
    · exact hgate rfl
  simp only [PreCommit.into_prepared_commit_future, hcc, hser] at h
  by_cases hname : env.storeName = str "LakeFSLogStore" ∨ env.storeName = str "DefaultLogStore"
  · rw [if_pos hname] at h
    cases h
    exact ⟨fun _ => ⟨rfl, rfl⟩, fun hn => absurd hname hn⟩
  · rw [if_neg hname] at h
    cases hpr : env.putRes with
    | ok u =>
      cases u
      rw [hpr] at h
      cases h
      refine ⟨fun hn => absurd hn hname, fun _ => ⟨rfl, fun _ => rfl, fun e he => ?_⟩⟩
      cases he
    | error e =>
      rw [hpr] at h
      cases h
      refine ⟨fun hn => absurd hn hname, fun _ => ⟨rfl, fun hok => ?_, fun e2 he2 => ?_⟩⟩
      · cases hok
      · cases he2
        rfl

/-- Witness for C6: a conditional-put driver keeps the bytes in memory, a
rename-based driver stages at the temporary commit path. -/
theorem prepare_commit_staging_mode_witness :
    (PreCommit.into_prepared_commit_future
        { storeName := str "DefaultLogStore", token := str "t",
          putRes := Except.ok (), canCommitRes := Except.ok () } false
        (CommitData.mk [Action.cdc (str "a")] ⟨str "w", []⟩ [] [])).2
      = Except.ok (CommitOrBytes.logBytes
          (jwrap "cdc" (jfield "path" (encodeString (str "a")))))
    ∧ (PreCommit.into_prepared_commit_future
        { storeName := str "FileLogStore", token := str "t",
          putRes := Except.ok (), canCommitRes := Except.ok () } false
        (CommitData.mk [Action.cdc (str "a")] ⟨str "w", []⟩ [] [])).1
      = [PrepareEvent.putStaged (tmp_commit_path (str "t"))] := by
  constructor
  · exact ((prepare_commit_staging_mode
      { storeName := str "DefaultLogStore", token := str "t",
        putRes := Except.ok (), canCommitRes := Except.ok () } false
      (CommitData.mk [Action.cdc (str "a")] ⟨str "w", []⟩ [] [])
      (jwrap "cdc" (jfield "path" (encodeString (str "a")))) _ _
      (fun _ => rfl) rfl rfl).1 (by decide)).2
  · exact ((prepare_commit_staging_mode
      { storeName := str "FileLogStore", token := str "t",
        putRes := Except.ok (), canCommitRes := Except.ok () } false
      (CommitData.mk [Action.cdc (str "a")] ⟨str "w", []⟩ [] [])
      (jwrap "cdc" (jfield "path" (encodeString (str "a")))) _ _
      (fun _ => rfl) rfl rfl).2 (by decide)).1

/-! ## Post-commit hook lemmas (claims C8, C10) -/

theorem advanceSnapshot_events (env : HookEnv) (version : Int) :
    ∀ ev ∈ (advanceSnapshot env version).1,
      ev = HookEvent.snapshotUpdate (version - 1) ∨ ev = HookEvent.advance := by
  intro ev hev
  unfold advanceSnapshot at hev
  split at hev
  · split at hev
    · simp at hev
      exact Or.inl hev
    · simp at hev
      exact hev
  · simp at hev
    exact Or.inr hev

theorem runHandlerHook_events (installed : Bool) (r : Except TransactionError Unit)
    (e0 : HookEvent) : ∀ ev ∈ (runHandlerHook installed r e0).1, ev = e0 := by
  intro ev hev
  unfold runHandlerHook at hev
  split at hev
  · simp at hev
    exact hev
  · simp at hev

theorem cleanupStep_events (env : HookEnv) (version : Int) (cl : Bool) :
    ∀ ev ∈ (cleanupStep env version cl).1,
      ev = HookEvent.cleanupExpiredLogsFor version ∨ ev = HookEvent.rematerialize := by
  intro ev hev
  unfold cleanupStep at hev
  split at hev
  · split at hev
    · simp at hev
      exact Or.inl hev
    · split at hev
      · split at hev
        · simp at hev
          exact hev
        · simp at hev
          exact hev
      · simp at hev
        exact Or.inl hev
  · simp at hev

theorem create_checkpoint_events (env : HookEnv) (version : Int) :
    (PostCommit.create_checkpoint env version).1 = []
    ∨ (PostCommit.create_checkpoint env version).1 = [HookEvent.createCheckpointFor version] := by
  unfold PostCommit.create_checkpoint
  split
  · exact Or.inl rfl
  · split
    · exact Or.inr rfl
    · exact Or.inl rfl


/-- Claim C8: a post-commit run with table data present creates a checkpoint
(and reports `new_checkpoint_created`) precisely when the
`create_checkpoint` flag is set, `version + 1` is divisible by the table's
checkpoint interval, and the table was loaded with `require_files`. -/
theorem post_commit_checkpoint_iff (env : HookEnv) (pc : PostCommitM)
    (hevs : List HookEvent) (m : PostCommitMetrics)
    (htd : pc.table_data_present = true)
    (h : PostCommit.run_post_commit_hook env pc = (hevs, Except.ok m)) :
    (m.new_checkpoint_created = true ↔
      (pc.create_checkpoint = true ∧ (pc.version + 1).tmod env.checkpoint_interval = 0
        ∧ env.require_files = true))
    ∧ (HookEvent.createCheckpointFor pc.version ∈ hevs ↔
      (pc.create_checkpoint = true ∧ (pc.version + 1).tmod env.checkpoint_interval = 0
        ∧ env.require_files = true)) := by
  unfold PostCommit.run_post_commit_hook at h
  rw [if_pos htd] at h
  cases hadv : advanceSnapshot env pc.version with
  | mk evs0 r0 =>
    rw [hadv] at h
    cases r0 with
    | error e => exact absurd (congrArg Prod.snd h) (by simp)
    | ok u0 =>
      dsimp only [] at h
      cases hbh : runHandlerHook env.hasHandler env.beforeHookRes
          (HookEvent.beforeHook
            ((pc.cleanup_expired_logs.getD env.enable_expired_log_cleanup)
              || pc.create_checkpoint)) with
      | mk evs1 r1 =>
        rw [hbh] at h
        cases r1 with
        | error e => exact absurd (congrArg Prod.snd h) (by simp)
        | ok u1 =>
          dsimp only [] at h
          cases hck : (if pc.create_checkpoint
              then PostCommit.create_checkpoint env pc.version
              else ([], Except.ok false)) with
          | mk evs2 r2 =>
            rw [hck] at h
            cases r2 with
            | error e => exact absurd (congrArg Prod.snd h) (by simp)
            | ok ckc =>
              dsimp only [] at h
              cases hcl : cleanupStep env pc.version
                  (pc.cleanup_expired_logs.getD env.enable_expired_log_cleanup) with
              | mk evs3 r3 =>
                rw [hcl] at h
                cases r3 with
                | error e => exact absurd (congrArg Prod.snd h) (by simp)
                | ok ncl =>
                  dsimp only [] at h
                  cases hah : runHandlerHook env.hasHandler env.afterHookRes
                      (HookEvent.afterHook
                        ((pc.cleanup_expired_logs.getD env.enable_expired_log_cleanup)
                          || pc.create_checkpoint)) with
                  | mk evs4 r4 =>
                    rw [hah] at h
                    cases r4 with
                    | error e => exact absurd (congrArg Prod.snd h) (by simp)
                    | ok u4 =>
                      dsimp only [] at h
                      cases h
                      have h0 : ∀ x, HookEvent.createCheckpointFor x ∉ evs0 := by
                        intro x hx
                        have := advanceSnapshot_events env pc.version _
                          (by rw [congrArg Prod.fst hadv]; exact hx)
                        rcases this with hh | hh <;> simp at hh
                      have h1 : ∀ x, HookEvent.createCheckpointFor x ∉ evs1 := by
                        intro x hx
                        have := runHandlerHook_events env.hasHandler env.beforeHookRes _ _
                          (by rw [congrArg Prod.fst hbh]; exact hx)
                        simp at this
                      have h3 : ∀ x, HookEvent.createCheckpointFor x ∉ evs3 := by
                        intro x hx
                        have := cleanupStep_events env pc.version _ _
                          (by rw [congrArg Prod.fst hcl]; exact hx)
                        rcases this with hh | hh <;> simp at hh
                      have h4 : ∀ x, HookEvent.createCheckpointFor x ∉ evs4 := by
                        intro x hx
                        have := runHandlerHook_events env.hasHandler env.afterHookRes _ _
                          (by rw [congrArg Prod.fst hah]; exact hx)
                        simp at this
                      have hmem2 : (HookEvent.createCheckpointFor pc.version
                          ∈ evs0 ++ evs1 ++ evs2 ++ evs3 ++ evs4)
                          ↔ HookEvent.createCheckpointFor pc.version ∈ evs2 := by
                        simp only [List.mem_append]
                        constructor
                        · rintro ((((hx | hx) | hx) | hx) | hx)
                          · exact absurd hx (h0 _)
                          · exact absurd hx (h1 _)
                          · exact hx
                          · exact absurd hx (h3 _)
                          · exact absurd hx (h4 _)
                        · intro hx
                          exact Or.inl (Or.inl (Or.inr hx))
                      by_cases hcc : pc.create_checkpoint = true
                      · rw [if_pos hcc] at hck
                        unfold PostCommit.create_checkpoint at hck
                        by_cases hrf : env.require_files = true
                        · rw [if_neg (by simp [hrf])] at hck
                          by_cases htm : (pc.version + 1).tmod env.checkpoint_interval = 0
                          · rw [if_pos htm] at hck
                            cases hckr : env.createCheckpointRes with
                            | error e =>
                              rw [hckr] at hck
                              exact absurd (congrArg Prod.snd hck) (by simp)
                            | ok u =>
                              rw [hckr] at hck
                              have he2 : evs2 = [HookEvent.createCheckpointFor pc.version] :=
                                (congrArg Prod.fst hck).symm
                              have hc2 : ckc = true := by
                                have := congrArg Prod.snd hck
                                simp at this
                                exact this
                              subst hc2
                              refine ⟨by simp [hcc, htm, hrf], ?_⟩
                              rw [hmem2, he2]
                              simp [hcc, htm, hrf]
                          · rw [if_neg htm] at hck
                            have he2 : evs2 = [] := (congrArg Prod.fst hck).symm
                            have hc2 : ckc = false := by
                              have := congrArg Prod.snd hck
                              simp at this
                              exact this
                            subst hc2
                            refine ⟨by simp [htm], ?_⟩
                            rw [hmem2, he2]
                            simp [htm]
                        · have hrf2 : env.require_files = false := by simpa using hrf
                          rw [if_pos (by simp [hrf2])] at hck
                          have he2 : evs2 = [] := (congrArg Prod.fst hck).symm
                          have hc2 : ckc = false := by
                            have := congrArg Prod.snd hck
                            simp at this
                            exact this
                          subst hc2
                          refine ⟨by simp [hrf2], ?_⟩
                          rw [hmem2, he2]
                          simp [hrf2]
                      · rw [if_neg hcc] at hck
                        have he2 : evs2 = [] := (congrArg Prod.fst hck).symm
                        have hc2 : ckc = false := by
                          have := congrArg Prod.snd hck
                          simp at this
                          exact this
                        subst hc2
                        refine ⟨by simp [hcc], ?_⟩
                        rw [hmem2, he2]
                        simp [hcc]


/-- Witness for C8 at a concrete hook oracle whose interval divides
`version + 1`: the checkpoint event is emitted. -/
theorem post_commit_checkpoint_iff_witness :
    HookEvent.createCheckpointFor 1
      ∈ ([HookEvent.advance, HookEvent.createCheckpointFor 1] : List HookEvent) :=
  (post_commit_checkpoint_iff
    { snapshotVersion := 0, require_files := true, checkpoint_interval := 2,
      enable_expired_log_cleanup := false, hasHandler := false,
      updateRes := Except.ok (), advanceRes := Except.ok (),
      beforeHookRes := Except.ok (), createCheckpointRes := Except.ok (),
      cleanupCountRes := Except.ok 0, rematerializeRes := Except.ok (),
      afterHookRes := Except.ok (), tryNewRes := Except.ok () }
    { version := 1, create_checkpoint := true, cleanup_expired_logs := none,
      table_data_present := true, num_retries := 0 }
    [HookEvent.advance, HookEvent.createCheckpointFor 1]
    { new_checkpoint_created := true, num_log_files_cleaned_up := 0 }
    rfl rfl).2.mpr ⟨rfl, by decide, rfl⟩

/-- Claim C10: a commit finalized on the creation path always yields a
`PostCommit` with `create_checkpoint = false` and
`cleanup_expired_logs = None` regardless of the configured hook properties;
running its post-commit stage performs no checkpoint or log-cleanup call and
reports `new_checkpoint_created = false` and
`num_log_files_cleaned_up = 0` (with `num_retries = 0`). -/
theorem creation_path_no_post_commit_hooks (fenv : FinalizeEnv) (henv : HookEnv)
    (post : Option PostCommitHookProperties) (mr : Nat)
    (evs : List Event) (pc : PostCommitM)
    (h : PreparedCommit.into_future fenv none mr post = (evs, Except.ok pc)) :
    pc.create_checkpoint = false ∧ pc.cleanup_expired_logs = none
    ∧ pc.table_data_present = false
    ∧ (∀ hevs r, PostCommit.run_post_commit_hook henv pc = (hevs, r) →
        hevs = [] ∧ ∀ m, r = Except.ok m →
          m.new_checkpoint_created = false ∧ m.num_log_files_cleaned_up = 0)
    ∧ (∀ hevs mets, PostCommit.into_future henv pc = (hevs, Except.ok mets) →
        mets.num_retries = 0 ∧ mets.new_checkpoint_created = false
        ∧ mets.num_log_files_cleaned_up = 0) := by
  have hpc : pc =
      { version := 0, create_checkpoint := false, cleanup_expired_logs := none,
        table_data_present := false, num_retries := 0 } := by
    cases hw : fenv.write 0 0 with
    | ok u =>
      cases u
      simp only [PreparedCommit.into_future, hw] at h
      cases h
      rfl
    | error e =>
      simp only [PreparedCommit.into_future, hw] at h
      exact absurd (congrArg Prod.snd h) (by simp)
  subst hpc
  have hrun : ∀ hevs r, PostCommit.run_post_commit_hook henv
      { version := 0, create_checkpoint := false, cleanup_expired_logs := none,
        table_data_present := false, num_retries := 0 } = (hevs, r) →
      hevs = [] ∧ ∀ m, r = Except.ok m →
        m.new_checkpoint_created = false ∧ m.num_log_files_cleaned_up = 0 := by
    intro hevs r hr
    unfold PostCommit.run_post_commit_hook at hr
    rw [if_neg (by simp)] at hr
    cases htn : henv.tryNewRes with
    | ok u =>
      rw [htn] at hr
      cases hr
      exact ⟨rfl, fun m hm => by cases hm; exact ⟨rfl, rfl⟩⟩
    | error e =>
      rw [htn] at hr
      cases hr
      exact ⟨rfl, fun m hm => by cases hm⟩
  refine ⟨rfl, rfl, rfl, hrun, ?_⟩
  intro hevs mets hm
  unfold PostCommit.into_future at hm
  cases hrr : PostCommit.run_post_commit_hook henv
      { version := 0, create_checkpoint := false, cleanup_expired_logs := none,
        table_data_present := false, num_retries := 0 } with
  | mk hevs0 r0 =>
    rw [hrr] at hm
    cases r0 with
    | error e => exact absurd (congrArg Prod.snd hm) (by simp)
    | ok m0 =>
      dsimp only [] at hm
      cases hm
      obtain ⟨_, hmm⟩ := hrun _ _ hrr
      obtain ⟨hck, hcl⟩ := hmm m0 rfl
      exact ⟨rfl, hck, hcl⟩

/-- Witness for C10 at concrete oracles: the creation-path post-commit stage
performs no external hook call. -/
theorem creation_path_no_post_commit_hooks_witness :
    (PostCommit.run_post_commit_hook
        { snapshotVersion := 0, require_files := true, checkpoint_interval := 2,
          enable_expired_log_cleanup := true, hasHandler := true,
          updateRes := Except.ok (), advanceRes := Except.ok (),
          beforeHookRes := Except.ok (), createCheckpointRes := Except.ok (),
          cleanupCountRes := Except.ok 3, rematerializeRes := Except.ok (),
          afterHookRes := Except.ok (), tryNewRes := Except.ok () }
        { version := 0, create_checkpoint := false, cleanup_expired_logs := none,
          table_data_present := false, num_retries := 0 }).1 = [] :=
  ((creation_path_no_post_commit_hooks
    { getLatest := fun _ hint => Except.ok hint
      checkConflict := fun _ _ => Except.ok ()
      updateSnapshot := fun _ _ => Except.ok ()
      write := fun _ _ => Except.ok ()
      abort := fun _ _ => Except.ok () }
    { snapshotVersion := 0, require_files := true, checkpoint_interval := 2,
      enable_expired_log_cleanup := true, hasHandler := true,
      updateRes := Except.ok (), advanceRes := Except.ok (),
      beforeHookRes := Except.ok (), createCheckpointRes := Except.ok (),
      cleanupCountRes := Except.ok 3, rematerializeRes := Except.ok (),
      afterHookRes := Except.ok (), tryNewRes := Except.ok () }
    (some { create_checkpoint := true, cleanup_expired_logs := some true }) 15 _ _
    rfl).2.2.2.1 _ _ rfl).1

/-! ## Partition writer (claim C9) -/

/-- Claim C9: feeding a record batch whose schema differs from the
configured file schema returns `SchemaMismatch`, leaves the writer state
untouched, and performs no flush or upload. -/
theorem partition_writer_schema_mismatch (estSize : List Nat → Nat)
    (cfg : PartitionWriterConfig) (st : PartitionWriterState) (batch : RecordBatch)
    (h : batch.schema ≠ cfg.file_schema) :
    PartitionWriter.write estSize cfg st batch
      = ([], st, some (WriteError.schemaMismatch batch.schema cfg.file_schema)) := by
  unfold PartitionWriter.write
  rw [if_pos h]

/-- Witness for C9 at a concrete mismatched batch. -/
theorem partition_writer_schema_mismatch_witness :
    PartitionWriter.write List.length ⟨1, 10, 2⟩ ⟨[5], [[4]]⟩ ⟨2, [7]⟩
      = ([], ⟨[5], [[4]]⟩, some (WriteError.schemaMismatch 2 1)) :=
  partition_writer_schema_mismatch List.length ⟨1, 10, 2⟩ ⟨[5], [[4]]⟩ ⟨2, [7]⟩ (by decide)

end DeltaRs
